import Mathlib

/-!
Shallow embedding of the Elmo Modbus integration (ha-elmo-modbus):
the inventory/polling engine (`custom_components/elmo_modbus/coordinator.py`),
the alarm-state derivation and command-payload construction
(`custom_components/elmo-modbus/alarm_control_panel.py`), and the input
selection parser/formatter (`custom_components/elmo-modbus/input_selectors.py`).

Python `dict[int, V]` values are modelled as association lists with
Python-dict assignment semantics (update in place, append new keys at the
end); Python `set[int]` fields of the inventory are modelled as duplicate-free
lists (insertion of fresh elements appends), since every observable use in
the source goes through membership, emptiness, or `sorted(...)`.
Exceptions are modelled with `Option`/`Except`.
-/

namespace ElmoModbus

/-! ## Constants (`const.py`) -/

def DEFAULT_SECTORS : ℕ := 64

def REGISTER_STATUS_START : ℕ := 12289

def REGISTER_STATUS_COUNT : ℕ := 64

def REGISTER_COMMAND_START : ℕ := 12289

def REGISTER_COMMAND_COUNT : ℕ := 64

/-- Modelled from the spec: `REGISTER_ALARM_START` is imported by
`custom_components/elmo_modbus/coordinator.py` from a `const.py` module that
is not part of the provided sources; §6 of the spec gives the
sector alarm/triggered discrete-input span base address 5121. -/
def REGISTER_ALARM_START : ℕ := 5121

/-! ## Python dict model -/

/-- Python dict assignment `d[k] = v`: update the value in place when the key
is present, otherwise append the new binding at the end. -/
def dictSet {α : Type} : List (ℕ × α) → ℕ → α → List (ℕ × α)
  | [], k, v => [(k, v)]
  | (k', v') :: rest, k, v =>
      if k' = k then (k, v) :: rest else (k', v') :: dictSet rest k v

/-- Python dict lookup `d.get(k)`. -/
def dictLookup {α : Type} : List (ℕ × α) → ℕ → Option α
  | [], _ => none
  | (k', v') :: rest, k => if k' = k then some v' else dictLookup rest k

/-- Python membership test `k in d`. -/
def dictMem {α : Type} (d : List (ℕ × α)) (k : ℕ) : Bool :=
  (dictLookup d k).isSome

/-- The key list of a dict. -/
def dictKeys {α : Type} (d : List (ℕ × α)) : List ℕ :=
  d.map Prod.fst

/-! ## Address grouping (`_prepare_address_groups`) -/

/-- The walk of `_prepare_address_groups`: `current` is the (nonempty) run
being extended; on a gap the run is flushed as `(start, count, members)`. -/
def buildGroups : List ℕ → List ℕ → List (ℕ × ℕ × List ℕ)
  | [], current => [(current.headD 0, current.length, current)]
  | a :: rest, current =>
      if a = current.getLastD 0 + 1 then buildGroups rest (current ++ [a])
      else (current.headD 0, current.length, current) :: buildGroups rest [a]

/-- `_prepare_address_groups`: sorted deduplicated addresses plus the grouped
contiguous spans (`sorted({int(a) for a in addresses})` is modelled as
insertion sort of the deduplicated input list). -/
def prepareAddressGroups (addresses : List ℕ) :
    List ℕ × List (ℕ × ℕ × List ℕ) :=
  let ordered := List.insertionSort (· ≤ ·) addresses.dedup
  match ordered with
  | [] => ([], [])
  | a :: rest => (ordered, buildGroups rest [a])

/-- Number of maximal contiguous runs of a sorted list (spec §4.1/§8 wording:
walking `sorted(S)` once, a new run starts whenever `next ≠ current + 1`). -/
def countRuns : List ℕ → ℕ
  | [] => 0
  | [_] => 1
  | a :: b :: rest => (if b = a + 1 then 0 else 1) + countRuns (b :: rest)

/-- The elements that open a new maximal run after a gap in a sorted list
(every run start except the first). -/
def gapStarts : List ℕ → List ℕ
  | a :: b :: rest =>
      if b = a + 1 then gapStarts (b :: rest) else b :: gapStarts (b :: rest)
  | _ => []

/-- The first element of every maximal run of a sorted list. -/
def runStarts : List ℕ → List ℕ
  | [] => []
  | a :: rest => a :: gapStarts (a :: rest)

/-! ## Inventory (`ElmoModbusInventory`) -/

/-- Abstract Modbus transport: each read either fails (`none`, covering both
connection failures raised by `_ensure_client_connected` and error/falsy
responses) or yields the raw response payload (`response.bits` may carry
padding bits beyond `count`; `response.registers` may be short).  Writes
report success as a `Bool`. -/
structure Device where
  readDiscreteInputs : ℕ → ℕ → Option (List Bool)
  readCoils : ℕ → ℕ → Option (List Bool)
  readHoldingRegisters : ℕ → ℕ → Option (List ℕ)
  writeCoil : ℕ → Bool → Bool
  writeCoils : ℕ → List Bool → Bool

/-- `ElmoPanelStatus`. -/
structure ElmoPanelStatus where
  armed : List Bool
  triggered : List Bool
deriving DecidableEq, Repr

/-- `ElmoInventorySnapshot`. -/
structure ElmoInventorySnapshot where
  status : Option ElmoPanelStatus
  discreteInputs : List (ℕ × Bool)
  coils : List (ℕ × Bool)
  holdingRegisters : List (ℕ × Option ℕ)
deriving DecidableEq, Repr

/-- The mutable fields of `ElmoModbusInventory`.  The three registered
address sets are duplicate-free lists used only through membership,
emptiness and `sorted(...)`. -/
structure InventoryState where
  sectorCount : ℕ
  statusRequired : Bool
  discreteInputs : List ℕ
  coils : List ℕ
  holdingRegisters : List ℕ
  cachedStatus : Option ElmoPanelStatus
  cachedInputs : List (ℕ × Bool)
  cachedCoils : List (ℕ × Bool)
  cachedRegisters : List (ℕ × Option ℕ)
deriving DecidableEq, Repr

/-- `__init__`: `sector_count` is clamped to `max(1, min(sector_count, DEFAULT_SECTORS))`. -/
def initState (sectorCount : ℕ) : InventoryState :=
  { sectorCount := max 1 (min sectorCount DEFAULT_SECTORS)
    statusRequired := false
    discreteInputs := []
    coils := []
    holdingRegisters := []
    cachedStatus := none
    cachedInputs := []
    cachedCoils := []
    cachedRegisters := [] }

/-- `require_status`. -/
def requireStatus (st : InventoryState) : InventoryState :=
  { st with statusRequired := true }

/-- Set-union registration shared by `add_discrete_inputs` / `add_coils` /
`add_holding_registers` (a fresh address is appended, a known one ignored). -/
def addAddresses (dst : List ℕ) (addresses : List ℕ) : List ℕ :=
  addresses.foldl (fun acc a => if a ∈ acc then acc else acc ++ [a]) dst

/-- `add_discrete_inputs`. -/
def addDiscreteInputs (st : InventoryState) (addresses : List ℕ) : InventoryState :=
  { st with discreteInputs := addAddresses st.discreteInputs addresses }

/-- `add_coils`. -/
def addCoils (st : InventoryState) (addresses : List ℕ) : InventoryState :=
  { st with coils := addAddresses st.coils addresses }

/-- `add_holding_registers`. -/
def addHoldingRegisters (st : InventoryState) (addresses : List ℕ) : InventoryState :=
  { st with holdingRegisters := addAddresses st.holdingRegisters addresses }

/-- `_read_status`: two discrete-input reads of `sector_count` bits, each
trimmed with `bits[:sector_count]`. -/
def readStatus (dev : Device) (sectorCount : ℕ) : Option ElmoPanelStatus :=
  match dev.readDiscreteInputs REGISTER_STATUS_START sectorCount with
  | none => none
  | some armedBits =>
      match dev.readDiscreteInputs REGISTER_ALARM_START sectorCount with
      | none => none
      | some triggeredBits =>
          some ⟨armedBits.take sectorCount, triggeredBits.take sectorCount⟩

/-- `results[address] = bool(bits[index]) if index < len(bits) else False`
distributed positionally over a group's member addresses. -/
def distributeBits (d : List (ℕ × Bool)) (members : List ℕ) (bits : List Bool) :
    List (ℕ × Bool) :=
  (members.enum).foldl (fun acc p => dictSet acc p.2 (bits.getD p.1 false)) d

/-- `results[address] = registers[index] if index < len(registers) else None`. -/
def distributeRegisters (d : List (ℕ × Option ℕ)) (members : List ℕ)
    (registers : List ℕ) : List (ℕ × Option ℕ) :=
  (members.enum).foldl (fun acc p => dictSet acc p.2 registers[p.1]?) d

/-- Group loop of `_read_discrete_inputs` / `_read_coils`: one batched read
per group, aborting the whole read on any failure. -/
def readGroupsBool (read : ℕ → ℕ → Option (List Bool)) :
    List (ℕ × ℕ × List ℕ) → List (ℕ × Bool) → Option (List (ℕ × Bool))
  | [], results => some results
  | (start, count, members) :: rest, results =>
      match read start count with
      | none => none
      | some bits => readGroupsBool read rest (distributeBits results members bits)

/-- Group loop of `_read_holding_registers`. -/
def readGroupsRegisters (read : ℕ → ℕ → Option (List ℕ)) :
    List (ℕ × ℕ × List ℕ) → List (ℕ × Option ℕ) → Option (List (ℕ × Option ℕ))
  | [], results => some results
  | (start, count, members) :: rest, results =>
      match read start count with
      | none => none
      | some registers =>
          readGroupsRegisters read rest (distributeRegisters results members registers)

/-- `_read_discrete_inputs`. -/
def readDiscreteInputsAll (dev : Device) (addresses : List ℕ) :
    Option (List (ℕ × Bool)) :=
  readGroupsBool dev.readDiscreteInputs (prepareAddressGroups addresses).2 []

/-- `_read_coils`. -/
def readCoilsAll (dev : Device) (addresses : List ℕ) : Option (List (ℕ × Bool)) :=
  readGroupsBool dev.readCoils (prepareAddressGroups addresses).2 []

/-- `_read_holding_registers`. -/
def readHoldingRegistersAll (dev : Device) (addresses : List ℕ) :
    Option (List (ℕ × Option ℕ)) :=
  readGroupsRegisters dev.readHoldingRegisters (prepareAddressGroups addresses).2 []

/-- The `if self._status_required:` block of `refresh` (reads, then commits
`self._cached_status`). -/
def statusStep (dev : Device) (st : InventoryState) : Option InventoryState :=
  if st.statusRequired then
    (readStatus dev st.sectorCount).map fun s => { st with cachedStatus := some s }
  else some st

/-- The `if self._discrete_inputs:` block of `refresh`. -/
def inputsStep (dev : Device) (st : InventoryState) : Option InventoryState :=
  if st.discreteInputs.isEmpty then some st
  else (readDiscreteInputsAll dev st.discreteInputs).map fun m =>
    { st with cachedInputs := m }

/-- The `if self._coils:` block of `refresh`. -/
def coilsStep (dev : Device) (st : InventoryState) : Option InventoryState :=
  if st.coils.isEmpty then some st
  else (readCoilsAll dev st.coils).map fun m => { st with cachedCoils := m }

/-- The `if self._holding_registers:` block of `refresh`. -/
def registersStep (dev : Device) (st : InventoryState) : Option InventoryState :=
  if st.holdingRegisters.isEmpty then some st
  else (readHoldingRegistersAll dev st.holdingRegisters).map fun m =>
    { st with cachedRegisters := m }

/-- `refresh`: the four class blocks run in order, each committing its cache
on success; a raised `ConnectionException` is `none` in the first component,
and the second component is the inventory state at the raise point (after the
locals are assigned, the returned snapshot is exactly the updated caches). -/
def refresh (dev : Device) (st : InventoryState) :
    Option ElmoInventorySnapshot × InventoryState :=
  match statusStep dev st with
  | none => (none, st)
  | some st1 =>
      match inputsStep dev st1 with
      | none => (none, st1)
      | some st2 =>
          match coilsStep dev st2 with
          | none => (none, st2)
          | some st3 =>
              match registersStep dev st3 with
              | none => (none, st3)
              | some st4 =>
                  (some ⟨st4.cachedStatus, st4.cachedInputs, st4.cachedCoils,
                         st4.cachedRegisters⟩, st4)

/-- `write_coil`: on success the cache entry is updated unconditionally;
on failure (`none`) nothing has been mutated. -/
def writeCoil (dev : Device) (address : ℕ) (value : Bool) (st : InventoryState) :
    Option InventoryState :=
  if dev.writeCoil address value then
    some { st with cachedCoils := dictSet st.cachedCoils address value }
  else none

/-- The cache-update loop of `write_coils`: walking the payload at
consecutive addresses, updating `self._cached_coils` (the accumulator `d`)
only for addresses registered in `self._coils` or already cached. -/
def writeCoilsLoop (coilsSet : List ℕ) : List (ℕ × Bool) → ℕ → List Bool →
    List (ℕ × Bool)
  | d, _, [] => d
  | d, address, v :: rest =>
      writeCoilsLoop coilsSet
        (if address ∈ coilsSet ∨ dictMem d address then dictSet d address v else d)
        (address + 1) rest

/-- `write_coils`: empty payloads return immediately without touching the
device; otherwise one batched write, then the conditional cache updates. -/
def writeCoils (dev : Device) (start : ℕ) (values : List Bool)
    (st : InventoryState) : Option InventoryState :=
  if values.isEmpty then some st
  else if dev.writeCoils start values then
    some { st with cachedCoils := writeCoilsLoop st.coils st.cachedCoils start values }
  else none

/-! ## Operation sequences on an inventory -/

/-- One public inventory operation (used to quantify over all reachable
inventory states). -/
inductive Op where
  | requireStatusOp : Op
  | addDiscreteInputsOp : List ℕ → Op
  | addCoilsOp : List ℕ → Op
  | addHoldingRegistersOp : List ℕ → Op
  | writeCoilOp : ℕ → Bool → Op
  | writeCoilsOp : ℕ → List Bool → Op
  | refreshOp : Op

/-- Apply one operation against a device (the device is supplied per step so
a sequence can exercise arbitrary time-varying transport behaviour); a
failed write leaves the state unchanged, a failed refresh leaves the state
reached at the raise point. -/
def applyOp (st : InventoryState) : Op × Device → InventoryState
  | (.requireStatusOp, _) => requireStatus st
  | (.addDiscreteInputsOp l, _) => addDiscreteInputs st l
  | (.addCoilsOp l, _) => addCoils st l
  | (.addHoldingRegistersOp l, _) => addHoldingRegisters st l
  | (.writeCoilOp a v, dev) => (writeCoil dev a v st).getD st
  | (.writeCoilsOp s vs, dev) => (writeCoils dev s vs st).getD st
  | (.refreshOp, dev) => (refresh dev st).2

/-- The inventory state after running a sequence of operations from a fresh
inventory. -/
def runOps (sectorCount : ℕ) (ops : List (Op × Device)) : InventoryState :=
  ops.foldl applyOp (initState sectorCount)

/-! ## Alarm state derivation (`alarm_control_panel.py`) -/

/-- The three arming modes, in the fixed `MODES` order
(`tuple(LEGACY_OPTION_MAP)` = away, home, night). -/
inductive Mode where
  | away : Mode
  | home : Mode
  | night : Mode
deriving DecidableEq, Repr

/-- Position of a mode in the `MODES` tuple; `self._mode_sectors` (a dict
built by inserting configured modes in `MODES` order) is modelled as an
association list whose mode indexes strictly increase. -/
def modeIdx : Mode → ℕ
  | .away => 0
  | .home => 1
  | .night => 2

/-- `AlarmControlPanelState` values reachable from `alarm_state`. -/
inductive AlarmState where
  | disarmed : AlarmState
  | armedAway : AlarmState
  | armedHome : AlarmState
  | armedNight : AlarmState
  | armedCustomBypass : AlarmState
deriving DecidableEq, Repr

/-- `STATE_PRIORITY.get(state, 0)`. -/
def STATE_PRIORITY : AlarmState → ℕ
  | .armedAway => 3
  | .armedNight => 2
  | .armedHome => 1
  | _ => 0

/-- `MODE_TO_STATE`. -/
def MODE_TO_STATE : Mode → AlarmState
  | .away => .armedAway
  | .home => .armedHome
  | .night => .armedNight

/-- Rank of the underlying string value of an `AlarmControlPanelState`
(a `str` enum), used as the third sort key of `matches.sort(reverse=True)`:
"armed_away" < "armed_custom_bypass" < "armed_home" < "armed_night" <
"disarmed". -/
def stateStrRank : AlarmState → ℕ
  | .armedAway => 0
  | .armedCustomBypass => 1
  | .armedHome => 2
  | .armedNight => 3
  | .disarmed => 4

/-- Full sort key of one `matches` entry `(overlap, priority, state)`. -/
def matchKey (t : ℕ × ℕ × AlarmState) : ℕ × ℕ × ℕ :=
  (t.1, t.2.1, stateStrRank t.2.2)

/-- Strict lexicographic "greater" on sort keys. -/
def keyGtB (a b : ℕ × ℕ × ℕ) : Bool :=
  decide (b.1 < a.1) ||
    (a.1 == b.1 && (decide (b.2.1 < a.2.1) ||
      (a.2.1 == b.2.1 && decide (b.2.2 < a.2.2))))

/-- `matches.sort(reverse=True); matches[0]`: the entry with the
lexicographically greatest key, the earliest one on full ties (Python's sort
is stable). -/
def pickMax : List (ℕ × ℕ × AlarmState) → Option (ℕ × ℕ × AlarmState)
  | [] => none
  | x :: xs =>
      some (xs.foldl (fun best c =>
        if keyGtB (matchKey c) (matchKey best) then c else best) x)

/-- `armed_sectors_all = {i + 1 for i, b in enumerate(bits) if bool(b)}`. -/
def armedSectorsAll (bits : List Bool) : Finset ℕ :=
  ((Finset.range bits.length).filter fun i => bits.getD i false).image (· + 1)

/-- `panel_armed_sectors`: the armed set restricted to the managed sectors
when the panel manages any, the full armed set otherwise. -/
def restrictedArmed (bits : List Bool) (managed : Finset ℕ) : Finset ℕ :=
  if managed = ∅ then armedSectorsAll bits else armedSectorsAll bits ∩ managed

/-- `panel_total`. -/
def panelTotal (bits : List Bool) (managed : Finset ℕ) : ℕ :=
  if managed = ∅ then bits.length else managed.card

/-- `ElmoModbusAlarmControlPanel.alarm_state` for a present coordinator bit
list: disarmed check, exact-match loop (in `_mode_sectors` insertion order),
full-coverage check, overlap match with `(overlap, priority, state)`
descending sort, and the custom-bypass fallback. -/
def alarmState (bits : List Bool) (managed : Finset ℕ)
    (modes : List (Mode × Finset ℕ)) : AlarmState :=
  let panelArmed := restrictedArmed bits managed
  if panelArmed.card = 0 then .disarmed
  else
    let optionsMap : List (AlarmState × Finset ℕ) :=
      modes.map fun p => (MODE_TO_STATE p.1, p.2)
    match optionsMap.find? (fun q => panelArmed = q.2) with
    | some q => q.1
    | none =>
        if panelArmed.card = panelTotal bits managed then .armedAway
        else
          let overlapMatches := optionsMap.filterMap fun q =>
            let overlap := (panelArmed ∩ q.2).card
            if 0 < overlap then some (overlap, STATE_PRIORITY q.1, q.1) else none
          match pickMax overlapMatches with
          | some t => t.2.2
          | none => .armedCustomBypass

/-- `_build_command_payload`: starts from the coordinator's status bits when
present, truthy and long enough (`current[:REGISTER_COMMAND_COUNT]`),
otherwise from an all-`False` payload, then sets each in-range target
sector's bit. -/
def buildCommandPayload (data : Option (List Bool)) (targetSectors : List ℕ)
    (value : Bool) : List Bool :=
  let payload :=
    match data with
    | some current =>
        if ¬current.isEmpty ∧ REGISTER_COMMAND_COUNT ≤ current.length then
          current.take REGISTER_COMMAND_COUNT
        else List.replicate REGISTER_COMMAND_COUNT false
    | none => List.replicate REGISTER_COMMAND_COUNT false
  targetSectors.foldl (fun p s =>
    if 1 ≤ s ∧ s ≤ REGISTER_COMMAND_COUNT then p.set (s - 1) value else p) payload

/-! ## Input selection parsing and formatting (`input_selectors.py`)

Python strings are modelled as `List Char`. -/

instance instDecidableEqExcept {ε α : Type} [DecidableEq ε] [DecidableEq α] :
    DecidableEq (Except ε α) := fun x y =>
  match x, y with
  | .ok a, .ok b => decidable_of_iff (a = b) (by simp)
  | .error e, .error f => decidable_of_iff (e = f) (by simp)
  | .ok _, .error _ => isFalse (by simp)
  | .error _, .ok _ => isFalse (by simp)

/-- ASCII whitespace recognised by `str.strip()` / the `\s` class (the
selector strings produced and consumed here only ever contain `' '`). -/
def isSpaceChar (c : Char) : Bool :=
  c == ' ' || c == '\t' || c == '\n' || c == '\r'

/-- `str.strip()`. -/
def stripChars (s : List Char) : List Char :=
  ((s.dropWhile isSpaceChar).reverse.dropWhile isSpaceChar).reverse

/-- `value.replace(";", ",")`. -/
def replaceSemicolons (s : List Char) : List Char :=
  s.map fun c => if c = ';' then ',' else c

/-- `value.split(",")`: `""` splits to `[""]`. -/
def splitComma : List Char → List (List Char)
  | [] => [[]]
  | c :: rest =>
      if c = ',' then [] :: splitComma rest
      else
        match splitComma rest with
        | [] => [[c]]
        | p :: ps => (c :: p) :: ps

/-- The decimal digit characters produced by `str(n)`. -/
def digitChar : ℕ → Char
  | 0 => '0'
  | 1 => '1'
  | 2 => '2'
  | 3 => '3'
  | 4 => '4'
  | 5 => '5'
  | 6 => '6'
  | 7 => '7'
  | 8 => '8'
  | _ => '9'

/-- Decimal digits of `n`, least significant first; the first argument is
structural fuel (any fuel `≥ n` yields the digits of `n`). -/
def natToCharsAux : ℕ → ℕ → List Char
  | 0, _ => []
  | fuel + 1, n =>
      if n = 0 then [] else digitChar (n % 10) :: natToCharsAux fuel (n / 10)

/-- `str(n)` for a natural number. -/
def natToChars (n : ℕ) : List Char :=
  if n = 0 then ['0'] else (natToCharsAux n n).reverse

/-- Numeric value of a most-significant-first digit string. -/
def digitsToNat (s : List Char) : ℕ :=
  s.foldl (fun acc c => acc * 10 + (c.toNat - 48)) 0

/-- `int(part)` on an already-stripped token: an optional sign followed by
at least one digit (CPython's underscore digit grouping is not modelled;
no token built from digits and `-` uses it). -/
def pyInt (s : List Char) : Option ℤ :=
  match s with
  | [] => none
  | c :: rest =>
      if c = '-' then
        if rest ≠ [] ∧ rest.all Char.isDigit then some (-(digitsToNat rest : ℤ))
        else none
      else if c = '+' then
        if rest ≠ [] ∧ rest.all Char.isDigit then some (digitsToNat rest : ℤ)
        else none
      else if s.all Char.isDigit then some (digitsToNat s : ℤ)
      else none

/-- `_INPUT_RANGE_PATTERN.match(part)` for the anchored regex
`(\d+)\s*-\s*(\d+)`: leading digits, optional spaces, `-`, optional spaces,
trailing digits reaching the end of the token. -/
def matchRange (s : List Char) : Option (ℕ × ℕ) :=
  let d1 := s.takeWhile Char.isDigit
  let r1 := s.dropWhile Char.isDigit
  if d1 = [] then none
  else
    match r1.dropWhile isSpaceChar with
    | '-' :: r3 =>
        let r4 := r3.dropWhile isSpaceChar
        let d2 := r4.takeWhile Char.isDigit
        let r5 := r4.dropWhile Char.isDigit
        if d2 = [] ∨ r5 ≠ [] then none
        else some (digitsToNat d1, digitsToNat d2)
    | _ => none

/-- The per-token body of the `parse_input_sensor_selection` loop: empty
tokens are skipped; a range token adds its ascending span (endpoints swapped
with `min`/`max`) after the bounds check; any other token goes through
`int(...)` and the bounds and seen checks.  `seen` always holds exactly the
elements of `result`, so membership is tested on `result`. -/
def processPart (maxInput : ℕ) (result : List ℕ) (part : List Char) :
    Except Unit (List ℕ) :=
  if part.isEmpty then .ok result
  else
    match matchRange part with
    | some (startN, endN) =>
        let rangeStart := min startN endN
        let rangeEnd := max startN endN
        if rangeStart < 1 ∨ maxInput < rangeEnd then .error ()
        else
          .ok ((List.range' rangeStart (rangeEnd + 1 - rangeStart)).foldl
            (fun r sensor => if sensor ∈ r then r else r ++ [sensor]) result)
    | none =>
        match pyInt part with
        | none => .error ()
        | some z =>
            if z < 1 ∨ (maxInput : ℤ) < z then .error ()
            else if z.toNat ∈ result then .ok result
            else .ok (result ++ [z.toNat])

/-- The token loop of `parse_input_sensor_selection`; a raised `ValueError`
propagates out of the whole loop. -/
def processParts (maxInput : ℕ) : List (List Char) → List ℕ → Except Unit (List ℕ)
  | [], result => .ok result
  | p :: ps, result =>
      match processPart maxInput result p with
      | .error e => .error e
      | .ok r => processParts maxInput ps r

/-- `parse_input_sensor_selection`. -/
def parseSelection (value : List Char) (maxInput : ℕ) : Except Unit (List ℕ) :=
  if value.isEmpty || (stripChars value).isEmpty then .error ()
  else
    match processParts maxInput
        ((splitComma (replaceSemicolons value)).map stripChars) [] with
    | .error e => .error e
    | .ok result =>
        if result.isEmpty then .error ()
        else .ok (List.insertionSort (· ≤ ·) result)

/-- The range-building walk of `format_input_sensor_list`: `start`/`prev`
track the open range, closed when the next value is not `prev + 1`. -/
def buildRanges : List ℕ → ℕ → ℕ → List (ℕ × ℕ)
  | [], start, prev => [(start, prev)]
  | v :: rest, start, prev =>
      if v = prev + 1 then buildRanges rest start v
      else (start, prev) :: buildRanges rest v v

/-- One formatted part: `"a"` for a singleton range, `"a-b"` otherwise. -/
def rangePart (p : ℕ × ℕ) : List Char :=
  if p.1 = p.2 then natToChars p.1 else natToChars p.1 ++ '-' :: natToChars p.2

/-- `", ".join(parts)`. -/
def joinCommaSpace : List (List Char) → List Char
  | [] => []
  | [p] => p
  | p :: ps => p ++ ',' :: ' ' :: joinCommaSpace ps

/-- `format_input_sensor_list`. -/
def formatInputs (inputs : List ℕ) : List Char :=
  if inputs.isEmpty then []
  else
    match List.insertionSort (· ≤ ·) inputs with
    | [] => []
    | v :: rest => joinCommaSpace ((buildRanges rest v v).map rangePart)

/-! ## Auxiliary predicates used by the statements -/

/-- Shape of every `self._mode_sectors` built by the panel constructor: the
configured modes appear in strictly increasing `MODES` order (so each mode at
most once). -/
def modesOrdered (modes : List (Mode × Finset ℕ)) : Prop :=
  List.Chain' (fun p q => modeIdx p.1 < modeIdx q.1) modes

instance chainLtNatDecidable : (l : List ℕ) → Decidable (List.Chain' (· < ·) l)
  | [] => isTrue List.chain'_nil
  | [_] => isTrue (List.chain'_singleton _)
  | a :: b :: l =>
      match chainLtNatDecidable (b :: l) with
      | isTrue h =>
          if hab : a < b then isTrue (List.chain'_cons.mpr ⟨hab, h⟩)
          else isFalse fun hc => hab (List.chain'_cons.mp hc).1
      | isFalse h => isFalse fun hc => h (List.chain'_cons.mp hc).2

instance modesOrderedDecidable :
    (modes : List (Mode × Finset ℕ)) → Decidable (modesOrdered modes)
  | [] => isTrue List.chain'_nil
  | [p] => isTrue (List.chain'_singleton p)
  | p :: q :: rest =>
      match modesOrderedDecidable (q :: rest) with
      | isTrue h =>
          if hlt : modeIdx p.1 < modeIdx q.1 then
            isTrue (List.chain'_cons.mpr ⟨hlt, h⟩)
          else isFalse fun hc => hlt (List.chain'_cons.mp hc).1
      | isFalse h => isFalse fun hc => h (List.chain'_cons.mp hc).2

/-- Well-formedness of a list of closed ranges `(a, b)` with respect to a
lower bound: each range is ascending, starts at or after the bound, stays
within `1..maxI`, and the next range starts at least two past the previous
end (so consecutive ranges are maximal). -/
def rangesOK (maxI : ℕ) : ℕ → List (ℕ × ℕ) → Prop
  | _, [] => True
  | lo, (a, b) :: rest =>
      1 ≤ a ∧ lo ≤ a ∧ a ≤ b ∧ b ≤ maxI ∧ rangesOK maxI (b + 2) rest

/-- The ascending elements covered by a closed range `(a, b)`. -/
def rangeElems (p : ℕ × ℕ) : List ℕ :=
  List.range' p.1 (p.2 + 1 - p.1)

/-- Value of a least-significant-first digit string. -/
def valLsd : List Char → ℕ
  | [] => 0
  | c :: cs => (c.toNat - 48) + 10 * valLsd cs

/-- Key invariant of the caches that refresh never re-reads when the
corresponding registered set is empty: the discrete-input and
holding-register caches only ever hold registered addresses (the coil cache
has no such invariant, because `write_coil` caches unconditionally). -/
def InvKeys (st : InventoryState) : Prop :=
  (∀ k ∈ dictKeys st.cachedInputs, k ∈ st.discreteInputs) ∧
  (∀ k ∈ dictKeys st.cachedRegisters, k ∈ st.holdingRegisters)

/-! ## Concrete devices and states used in witnesses and counterexamples -/

/-- A device on which every read succeeds with an empty payload and every
write succeeds. -/
def okDev : Device :=
  { readDiscreteInputs := fun _ _ => some []
    readCoils := fun _ _ => some []
    readHoldingRegisters := fun _ _ => some []
    writeCoil := fun _ _ => true
    writeCoils := fun _ _ => true }

/-- A device whose discrete-input reads succeed with a set bit except at
address 0, where they fail; coil and register reads fail, writes succeed. -/
def statusOnlyDev : Device :=
  { readDiscreteInputs := fun start _ => if start = 0 then none else some [true]
    readCoils := fun _ _ => none
    readHoldingRegisters := fun _ _ => none
    writeCoil := fun _ _ => true
    writeCoils := fun _ _ => true }

/-- Reachable inventory state requiring the status probe and polling the
discrete input at address 0. -/
def stStatusInput : InventoryState :=
  runOps 1 [(.requireStatusOp, okDev), (.addDiscreteInputsOp [0], okDev)]

/-- Reachable inventory state after a successful single-coil write to the
unregistered address 5. -/
def stWrite5 : InventoryState :=
  runOps 64 [(.writeCoilOp 5 true, okDev)]

/-- Reachable inventory state with only coil address 11 registered. -/
def stCoil11 : InventoryState :=
  runOps 64 [(.addCoilsOp [11], okDev)]

/-! # Lemmas and theorems -/

/-! ### Dictionary lemmas -/

theorem dictLookup_set_self {α : Type} (d : List (ℕ × α)) (k : ℕ) (v : α) :
    dictLookup (dictSet d k v) k = some v := by
  induction d with
  | nil => simp [dictSet, dictLookup]
  | cons p rest ih =>
      obtain ⟨k', v'⟩ := p
      by_cases h : k' = k
      · simp [dictSet, h, dictLookup]
      · simp [dictSet, h, dictLookup, ih]

theorem dictLookup_set_ne {α : Type} (d : List (ℕ × α)) (k k' : ℕ) (v : α)
    (h : k ≠ k') : dictLookup (dictSet d k v) k' = dictLookup d k' := by
  induction d with
  | nil => simp [dictSet, dictLookup, h]
  | cons p rest ih =>
      obtain ⟨k₀, v₀⟩ := p
      by_cases h₀ : k₀ = k
      · simp [dictSet, h₀, dictLookup, h, Ne.symm h]
      · simp only [dictSet, if_neg h₀, dictLookup]
        split
        · rfl
        · exact ih

/-! ### C10: empty batched coil write is a no-op -/

/-- **C10.** `write_coils` with an empty value sequence returns successfully
and leaves the whole inventory state (coil cache and registered sets
included) unchanged, for every start address, state, and device — in
particular also for a device on which every write fails, so no device write
can have been issued. -/
theorem write_coils_empty_noop (dev : Device) (start : ℕ) (st : InventoryState) :
    writeCoils dev start [] st = some st := by
  simp [writeCoils]

/-! ### C8: command payload construction -/

theorem cmdFold_length (value : Bool) (ts : List ℕ) (p : List Bool) :
    (ts.foldl (fun p s =>
      if 1 ≤ s ∧ s ≤ REGISTER_COMMAND_COUNT then p.set (s - 1) value else p)
      p).length = p.length := by
  induction ts generalizing p with
  | nil => rfl
  | cons t rest ih =>
      simp only [List.foldl_cons]
      split
      · rw [ih, List.length_set]
      · exact ih p

theorem cmdFold_not_mem (value : Bool) (ts : List ℕ) (p : List Bool) (i : ℕ)
    (h : (i + 1) ∉ ts) :
    (ts.foldl (fun p s =>
      if 1 ≤ s ∧ s ≤ REGISTER_COMMAND_COUNT then p.set (s - 1) value else p)
      p).getD i false = p.getD i false := by
  induction ts generalizing p with
  | nil => rfl
  | cons t rest ih =>
      simp only [List.mem_cons, not_or] at h
      simp only [List.foldl_cons]
      rw [ih _ h.2]
      split
      · next hc =>
          have hne : t - 1 ≠ i := by omega
          simp [List.getD_eq_getElem?_getD, List.getElem?_set, hne]
      · rfl

theorem cmdFold_keep (value : Bool) (ts : List ℕ) (p : List Bool) (s : ℕ)
    (hv : p.getD (s - 1) false = value) :
    (ts.foldl (fun p s =>
      if 1 ≤ s ∧ s ≤ REGISTER_COMMAND_COUNT then p.set (s - 1) value else p)
      p).getD (s - 1) false = value := by
  induction ts generalizing p with
  | nil => exact hv
  | cons t rest ih =>
      simp only [List.foldl_cons]
      apply ih
      split
      · next hc =>
          by_cases he : t - 1 = s - 1
          · rw [he]
            by_cases hb : s - 1 < p.length
            · simp [List.getD_eq_getElem?_getD, List.getElem?_set, hb]
            · rw [List.set_eq_of_length_le (by omega)]
              exact hv
          · rw [List.getD_eq_getElem?_getD, List.getElem?_set, if_neg he,
                ← List.getD_eq_getElem?_getD]
            exact hv
      · exact hv

theorem cmdFold_mem (value : Bool) (ts : List ℕ) (p : List Bool) (s : ℕ)
    (hs : s ∈ ts) (h1 : 1 ≤ s) (h2 : s ≤ REGISTER_COMMAND_COUNT)
    (hlt : s - 1 < p.length) :
    (ts.foldl (fun p s =>
      if 1 ≤ s ∧ s ≤ REGISTER_COMMAND_COUNT then p.set (s - 1) value else p)
      p).getD (s - 1) false = value := by
  induction ts generalizing p with
  | nil => cases hs
  | cons t rest ih =>
      simp only [List.foldl_cons]
      rcases List.mem_cons.mp hs with he | hm
      · subst he
        rw [if_pos ⟨h1, h2⟩]
        apply cmdFold_keep
        simp [List.getD_eq_getElem?_getD, List.getElem?_set, hlt]
      · have hlen : ∀ q : List Bool, q.length = p.length →
            (if 1 ≤ t ∧ t ≤ REGISTER_COMMAND_COUNT then p.set (t - 1) value
             else p).length = p.length := by
          intro q _
          split <;> simp
        apply ih _ hm
        split <;> simp [hlt]

/-- **C8.** When the coordinator holds a last known status bit list of at
least `REGISTER_COMMAND_COUNT = 64` bits, `_build_command_payload` returns a
full 64-bit payload in which every target sector within `1..64` is set to
the commanded value and every other position carries the corresponding bit
of the last known status (it is not zeroed). -/
theorem build_command_payload_spec (current : List Bool) (targets : List ℕ)
    (value : Bool) (hlen : 64 ≤ current.length) :
    (buildCommandPayload (some current) targets value).length = 64 ∧
    (∀ s ∈ targets, 1 ≤ s → s ≤ 64 →
      (buildCommandPayload (some current) targets value).getD (s - 1) false
        = value) ∧
    (∀ i, i < 64 → (i + 1) ∉ targets →
      (buildCommandPayload (some current) targets value).getD i false
        = current.getD i false) := by
  have hne : ¬current.isEmpty := by
    cases current with
    | nil => simp at hlen
    | cons a l => simp
  have hcc : REGISTER_COMMAND_COUNT = 64 := rfl
  have hbase : (buildCommandPayload (some current) targets value) =
      targets.foldl (fun p s =>
        if 1 ≤ s ∧ s ≤ REGISTER_COMMAND_COUNT then p.set (s - 1) value else p)
        (current.take REGISTER_COMMAND_COUNT) := by
    simp [buildCommandPayload, hne, hcc, hlen]
  have htlen : (current.take REGISTER_COMMAND_COUNT).length = 64 := by
    rw [List.length_take, hcc]
    omega
  refine ⟨?_, ?_, ?_⟩
  · rw [hbase, cmdFold_length, htlen]
  · intro s hs h1 h2
    rw [hbase]
    exact cmdFold_mem value targets _ s hs h1 (by rw [hcc]; exact h2) (by omega)
  · intro i hi hnot
    rw [hbase, cmdFold_not_mem value targets _ i hnot]
    have hi' : i < current.length := by omega
    simp [List.getD_eq_getElem?_getD, List.getElem?_take, hcc, hi]

/-- **C8 witness.** Instance of `build_command_payload_spec` at a concrete
64-bit status list. -/
theorem build_command_payload_spec_witness :
    64 ≤ (List.replicate 64 false).length ∧
    ((buildCommandPayload (some (List.replicate 64 false)) [3, 70] true).length
        = 64 ∧
      (∀ s ∈ [3, 70], 1 ≤ s → s ≤ 64 →
        (buildCommandPayload (some (List.replicate 64 false)) [3, 70]
          true).getD (s - 1) false = true) ∧
      (∀ i, i < 64 → (i + 1) ∉ [3, 70] →
        (buildCommandPayload (some (List.replicate 64 false)) [3, 70]
          true).getD i false = (List.replicate 64 false).getD i false)) :=
  ⟨by decide, build_command_payload_spec (List.replicate 64 false) [3, 70] true
    (by decide)⟩

/-! ### C4: address grouping -/

theorem buildGroups_flatten (rest : List ℕ) (current : List ℕ) :
    ((buildGroups rest current).flatMap fun g => g.2.2) = current ++ rest := by
  induction rest generalizing current with
  | nil => simp [buildGroups]
  | cons a rest ih =>
      simp only [buildGroups]
      split
      · rw [ih (current ++ [a])]
        simp
      · rw [List.flatMap_cons, ih [a]]
        simp

theorem buildGroups_contiguous (rest : List ℕ) (current : List ℕ)
    (hcur : ∃ s n, current = List.range' s (n + 1)) :
    ∀ g ∈ buildGroups rest current,
      g.2.2 = List.range' g.1 g.2.1 ∧ g.2.1 = g.2.2.length ∧ 0 < g.2.1 := by
  induction rest generalizing current with
  | nil =>
      intro g hg
      obtain ⟨s, n, rfl⟩ := hcur
      have hhead : (List.range' s (n + 1)).headD 0 = s := by
        rw [List.range'_succ]
        rfl
      have hlen : (List.range' s (n + 1)).length = n + 1 := by simp
      simp only [buildGroups, List.mem_singleton] at hg
      subst hg
      refine ⟨?_, rfl, ?_⟩
      · rw [hhead, hlen]
      · show 0 < (List.range' s (n + 1)).length
        rw [hlen]
        omega
  | cons a rest ih =>
      intro g hg
      obtain ⟨s, n, rfl⟩ := hcur
      have hhead : (List.range' s (n + 1)).headD 0 = s := by
        rw [List.range'_succ]
        rfl
      have hlen : (List.range' s (n + 1)).length = n + 1 := by simp
      have hlast : (List.range' s (n + 1)).getLastD 0 = s + n := by
        rw [List.range'_1_concat, List.getLastD_concat]
      simp only [buildGroups] at hg
      split at hg
      · next hstep =>
          rw [hlast] at hstep
          have ha : a = s + (n + 1) := by omega
          refine ih _ ⟨s, n + 1, ?_⟩ g hg
          show List.range' s (n + 1) ++ [a] = List.range' s ((n + 1) + 1)
          rw [List.range'_1_concat s (n + 1), ha]
      · rcases List.mem_cons.mp hg with hg0 | hgrest
        · subst hg0
          refine ⟨?_, rfl, ?_⟩
          · rw [hhead, hlen]
          · show 0 < (List.range' s (n + 1)).length
            rw [hlen]
            omega
        · refine ih [a] ⟨a, 0, ?_⟩ g hgrest
          simp

theorem buildGroups_length (rest : List ℕ) (current : List ℕ) :
    (buildGroups rest current).length = countRuns (current.getLastD 0 :: rest) := by
  induction rest generalizing current with
  | nil => simp [buildGroups, countRuns]
  | cons a rest ih =>
      simp only [buildGroups]
      split
      · next hstep =>
          rw [ih (current ++ [a]), List.getLastD_concat]
          show countRuns (a :: rest) =
            (if a = current.getLastD 0 + 1 then 0 else 1) + countRuns (a :: rest)
          rw [if_pos hstep]
          omega
      · next hstep =>
          rw [List.length_cons, ih [a]]
          show countRuns (a :: rest) + 1 =
            (if a = current.getLastD 0 + 1 then 0 else 1) + countRuns (a :: rest)
          rw [if_neg hstep]
          omega

theorem length_gapStarts :
    ∀ (rest : List ℕ) (a : ℕ),
      (gapStarts (a :: rest)).length + 1 = countRuns (a :: rest) := by
  intro rest
  induction rest with
  | nil => intro a; rfl
  | cons b t ih =>
      intro a
      show (if b = a + 1 then gapStarts (b :: t)
        else b :: gapStarts (b :: t)).length + 1 =
        (if b = a + 1 then 0 else 1) + countRuns (b :: t)
      have hb := ih b
      split
      · omega
      · simp only [List.length_cons]
        omega

theorem length_runStarts (l : List ℕ) : (runStarts l).length = countRuns l := by
  cases l with
  | nil => rfl
  | cons a rest =>
      show (gapStarts (a :: rest)).length + 1 = countRuns (a :: rest)
      exact length_gapStarts rest a

theorem mem_gapStarts_sub :
    ∀ (l : List ℕ) (x : ℕ), x ∈ gapStarts l → x ∈ l := by
  intro l
  induction l with
  | nil => intro x hx; cases hx
  | cons a rest ih =>
      intro x hx
      cases rest with
      | nil => cases hx
      | cons b t =>
          have hx' : x ∈ if b = a + 1 then gapStarts (b :: t)
              else b :: gapStarts (b :: t) := hx
          split at hx'
          · exact List.mem_cons_of_mem a (ih x hx')
          · rcases List.mem_cons.mp hx' with rfl | hx''
            · exact List.mem_cons_of_mem a (List.mem_cons_self x t)
            · exact List.mem_cons_of_mem a (ih x hx'')

theorem chain_lt_head_le (a : ℕ) (l : List ℕ)
    (h : List.Chain' (· < ·) (a :: l)) : ∀ y ∈ a :: l, a ≤ y := by
  intro y hy
  rcases List.mem_cons.mp hy with rfl | hy'
  · exact le_rfl
  · have hp := List.chain'_iff_pairwise.mp h
    exact le_of_lt ((List.pairwise_cons.mp hp).1 y hy')

theorem gapStarts_gap :
    ∀ (l : List ℕ), List.Chain' (· < ·) l →
      ∀ x ∈ gapStarts l, 1 ≤ x ∧ x - 1 ∉ l ∧ l.headD 0 + 1 < x := by
  intro l
  induction l with
  | nil => intro _ x hx; cases hx
  | cons a rest ih =>
      intro hch x hx
      cases rest with
      | nil => cases hx
      | cons b t =>
          have hab : a < b := (List.chain'_cons.mp hch).1
          have hcht : List.Chain' (· < ·) (b :: t) := (List.chain'_cons.mp hch).2
          have hx' : x ∈ if b = a + 1 then gapStarts (b :: t)
              else b :: gapStarts (b :: t) := hx
          show 1 ≤ x ∧ x - 1 ∉ a :: b :: t ∧ a + 1 < x
          split at hx'
          · obtain ⟨h1, hnotin, hhead⟩ := ih hcht x hx'
            have hhead' : b + 1 < x := hhead
            refine ⟨h1, ?_, by omega⟩
            intro hmem
            rcases List.mem_cons.mp hmem with heq | hmem'
            · omega
            · exact hnotin hmem'
          · next hne =>
              rcases List.mem_cons.mp hx' with rfl | hx''
              · refine ⟨by omega, ?_, by omega⟩
                intro hmem
                rcases List.mem_cons.mp hmem with heq | hmem'
                · omega
                · have := chain_lt_head_le x t hcht _ hmem'
                  omega
              · obtain ⟨h1, hnotin, hhead⟩ := ih hcht x hx''
                have hhead' : b + 1 < x := hhead
                refine ⟨h1, ?_, by omega⟩
                intro hmem
                rcases List.mem_cons.mp hmem with heq | hmem'
                · omega
                · exact hnotin hmem'

theorem pairwise_gapStarts :
    ∀ (l : List ℕ), List.Chain' (· < ·) l →
      List.Pairwise (· < ·) (gapStarts l) := by
  intro l
  induction l with
  | nil => intro _; exact List.Pairwise.nil
  | cons a rest ih =>
      intro hch
      cases rest with
      | nil => exact List.Pairwise.nil
      | cons b t =>
          have hcht : List.Chain' (· < ·) (b :: t) := (List.chain'_cons.mp hch).2
          show List.Pairwise (· < ·) (if b = a + 1 then gapStarts (b :: t)
            else b :: gapStarts (b :: t))
          split
          · exact ih hcht
          · refine List.pairwise_cons.mpr ⟨?_, ih hcht⟩
            intro y hy
            have hy' : b + 1 < y := (gapStarts_gap (b :: t) hcht y hy).2.2
            omega

theorem nodup_runStarts (l : List ℕ) (h : List.Chain' (· < ·) l) :
    (runStarts l).Nodup := by
  cases l with
  | nil => exact List.nodup_nil
  | cons a rest =>
      have hpw : List.Pairwise (· < ·) (a :: gapStarts (a :: rest)) := by
        refine List.pairwise_cons.mpr ⟨?_, pairwise_gapStarts (a :: rest) h⟩
        intro y hy
        have hy' : a + 1 < y := (gapStarts_gap (a :: rest) h y hy).2.2
        omega
      exact hpw.imp ne_of_lt

theorem mem_runStarts_sub (l : List ℕ) (x : ℕ) (hx : x ∈ runStarts l) :
    x ∈ l := by
  cases l with
  | nil => cases hx
  | cons a rest =>
      rcases List.mem_cons.mp hx with rfl | hx'
      · exact List.mem_cons_self x rest
      · exact mem_gapStarts_sub (a :: rest) x hx'

theorem runStarts_gap (l : List ℕ) (h : List.Chain' (· < ·) l)
    (r1 r2 : ℕ) (h1 : r1 ∈ runStarts l) (h2 : r2 ∈ runStarts l)
    (hlt : r1 < r2) : 1 ≤ r2 ∧ r2 - 1 ∉ l := by
  cases l with
  | nil => cases h1
  | cons a rest =>
      rcases List.mem_cons.mp h2 with rfl | hg2
      · rcases List.mem_cons.mp h1 with rfl | hg1
        · omega
        · have hr1 : r2 + 1 < r1 := (gapStarts_gap (r2 :: rest) h r1 hg1).2.2
          omega
      · obtain ⟨h1', hnot, _⟩ := gapStarts_gap (a :: rest) h r2 hg2
        exact ⟨h1', hnot⟩

/-- Any family of contiguous half-open ranges whose union is exactly the
element set of the sorted list `l` has at least as many ranges as `l` has
maximal runs: each run start lies in some range, and no range can hold two
run starts (it would also contain the predecessor of the later one, which
is outside the set). -/
theorem countRuns_min_cover (l : List ℕ) (hch : List.Chain' (· < ·) l)
    (cover : List (ℕ × ℕ))
    (hcov : ∀ x : ℕ, (∃ g ∈ cover, g.1 ≤ x ∧ x < g.1 + g.2) ↔ x ∈ l) :
    countRuns l ≤ cover.length := by
  rw [← length_runStarts]
  have hnd := nodup_runStarts l hch
  rw [← List.toFinset_card_of_nodup hnd, ← Finset.card_range cover.length]
  have hmain : ∀ s1 s2 : ℕ, s1 ∈ runStarts l → s2 ∈ runStarts l → s1 < s2 →
      cover.findIdx (fun g => decide (g.1 ≤ s1) && decide (s1 < g.1 + g.2)) =
        cover.findIdx (fun g => decide (g.1 ≤ s2) && decide (s2 < g.1 + g.2)) →
      False := by
    intro s1 s2 hs1 hs2 hlt hfeq
    have hex2 : ∃ g ∈ cover,
        (decide (g.1 ≤ s2) && decide (s2 < g.1 + g.2)) = true := by
      rcases (hcov s2).mpr (mem_runStarts_sub l s2 hs2) with ⟨g, hg, hgr⟩
      exact ⟨g, hg, by simp [hgr.1, hgr.2]⟩
    have hi2 : cover.findIdx
        (fun g => decide (g.1 ≤ s2) && decide (s2 < g.1 + g.2)) <
        cover.length := List.findIdx_lt_length_of_exists hex2
    have hi1 : cover.findIdx
        (fun g => decide (g.1 ≤ s1) && decide (s1 < g.1 + g.2)) <
        cover.length := hfeq ▸ hi2
    have hp1 := List.findIdx_getElem (w := hi1)
    have hp2 := List.findIdx_getElem (w := hi2)
    simp only [hfeq] at hp1
    simp only [Bool.and_eq_true, decide_eq_true_eq] at hp1 hp2
    have hgap := runStarts_gap l hch s1 s2 hs1 hs2 hlt
    apply hgap.2
    apply (hcov (s2 - 1)).mp
    refine ⟨cover[cover.findIdx
      (fun g => decide (g.1 ≤ s2) && decide (s2 < g.1 + g.2))],
      List.getElem_mem _, ?_, ?_⟩
    · omega
    · omega
  apply Finset.card_le_card_of_injOn
    (fun r => cover.findIdx fun g => decide (g.1 ≤ r) && decide (r < g.1 + g.2))
  · intro r hr
    rw [List.mem_toFinset] at hr
    have hex : ∃ g ∈ cover,
        (decide (g.1 ≤ r) && decide (r < g.1 + g.2)) = true := by
      rcases (hcov r).mpr (mem_runStarts_sub l r hr) with ⟨g, hg, hgr⟩
      exact ⟨g, hg, by simp [hgr.1, hgr.2]⟩
    rw [Finset.mem_range]
    exact List.findIdx_lt_length_of_exists hex
  · intro r1 hr1 r2 hr2 heq
    have hr1' : r1 ∈ runStarts l := by
      have := hr1
      rw [Finset.mem_coe, List.mem_toFinset] at this
      exact this
    have hr2' : r2 ∈ runStarts l := by
      have := hr2
      rw [Finset.mem_coe, List.mem_toFinset] at this
      exact this
    rcases lt_trichotomy r1 r2 with hlt | heq' | hlt
    · exact absurd (hmain r1 r2 hr1' hr2' hlt heq) id
    · exact heq'
    · exact absurd (hmain r2 r1 hr2' hr1' hlt heq.symm) id

/-- Core properties of `_prepare_address_groups`: partition, contiguity,
run count, and the empty case. -/
theorem prepareAddressGroups_props (addresses : List ℕ) :
    (((prepareAddressGroups addresses).2.flatMap fun g => g.2.2) =
      (prepareAddressGroups addresses).1) ∧
    (∀ a, a ∈ (prepareAddressGroups addresses).1 ↔ a ∈ addresses) ∧
    (prepareAddressGroups addresses).1.Nodup ∧
    List.Sorted (· ≤ ·) (prepareAddressGroups addresses).1 ∧
    (∀ g ∈ (prepareAddressGroups addresses).2,
      g.2.2 = List.range' g.1 g.2.1 ∧ g.2.1 = g.2.2.length ∧ 0 < g.2.1) ∧
    (prepareAddressGroups addresses).2.length =
      countRuns (prepareAddressGroups addresses).1 ∧
    (addresses = [] → prepareAddressGroups addresses = ([], [])) := by
  have hperm : (List.insertionSort (· ≤ ·) addresses.dedup).Perm addresses.dedup :=
    List.perm_insertionSort _ _
  have hmem : ∀ a, a ∈ List.insertionSort (· ≤ ·) addresses.dedup ↔
      a ∈ addresses := by
    intro a
    rw [hperm.mem_iff, List.mem_dedup]
  have hnodup : (List.insertionSort (· ≤ ·) addresses.dedup).Nodup :=
    hperm.nodup_iff.mpr (List.nodup_dedup _)
  have hsorted : List.Sorted (· ≤ ·) (List.insertionSort (· ≤ ·) addresses.dedup) :=
    List.sorted_insertionSort _ _
  rcases hord : List.insertionSort (· ≤ ·) addresses.dedup with _ | ⟨a, rest⟩
  · have hres : prepareAddressGroups addresses = ([], []) := by
      simp [prepareAddressGroups, hord]
    rw [hres]
    refine ⟨rfl, ?_, by simp, by simp, by simp, rfl, fun _ => rfl⟩
    intro x
    rw [← hmem x, hord]
  · have hres : prepareAddressGroups addresses =
        (a :: rest, buildGroups rest [a]) := by
      simp [prepareAddressGroups, hord]
    rw [hres]
    refine ⟨buildGroups_flatten rest [a], ?_, ?_, ?_, ?_, ?_, ?_⟩
    · intro x
      rw [← hmem x, hord]
    · rw [← hord]; exact hnodup
    · rw [← hord]; exact hsorted
    · exact buildGroups_contiguous rest [a] ⟨a, 0, by simp⟩
    · rw [buildGroups_length rest [a]]
      rfl
    · intro hemp
      subst hemp
      simp at hord

/-- **C4.** `_prepare_address_groups` partitions the input set exactly: the
concatenated group members equal the sorted deduplicated input (so no
address is missing, duplicated, or foreign), every group is a contiguous
ascending run `start..start+count-1`, the number of groups equals the number
of maximal contiguous runs of the sorted input — which is the minimum
possible: any family of contiguous half-open ranges whose union is exactly
the address set has at least that many ranges — and an empty input yields
no groups. -/
theorem prepare_address_groups_spec (addresses : List ℕ) :
    (((prepareAddressGroups addresses).2.flatMap fun g => g.2.2) =
      (prepareAddressGroups addresses).1) ∧
    (∀ a, a ∈ (prepareAddressGroups addresses).1 ↔ a ∈ addresses) ∧
    (prepareAddressGroups addresses).1.Nodup ∧
    List.Sorted (· ≤ ·) (prepareAddressGroups addresses).1 ∧
    (∀ g ∈ (prepareAddressGroups addresses).2,
      g.2.2 = List.range' g.1 g.2.1 ∧ g.2.1 = g.2.2.length ∧ 0 < g.2.1) ∧
    (prepareAddressGroups addresses).2.length =
      countRuns (prepareAddressGroups addresses).1 ∧
    (addresses = [] → prepareAddressGroups addresses = ([], [])) ∧
    (∀ cover : List (ℕ × ℕ),
      (∀ x : ℕ, (∃ g ∈ cover, g.1 ≤ x ∧ x < g.1 + g.2) ↔ x ∈ addresses) →
      (prepareAddressGroups addresses).2.length ≤ cover.length) := by
  obtain ⟨h1, h2, h3, h4, h5, h6, h7⟩ := prepareAddressGroups_props addresses
  refine ⟨h1, h2, h3, h4, h5, h6, h7, ?_⟩
  intro cover hcov
  have hpw : List.Pairwise (· < ·) (prepareAddressGroups addresses).1 :=
    (List.Pairwise.and h4 h3).imp fun h => lt_of_le_of_ne h.1 h.2
  have hch : List.Chain' (· < ·) (prepareAddressGroups addresses).1 :=
    List.chain'_iff_pairwise.mpr hpw
  rw [h6]
  exact countRuns_min_cover _ hch cover fun x => (hcov x).trans (h2 x).symm

/-- **C4 witness.** The spec §8 grouping example, the empty-input case, and
a concrete three-range cover of `[1, 2, 3, 5, 7, 8]` witnessing minimality,
all obtained from `prepare_address_groups_spec`. -/
theorem prepare_address_groups_spec_witness :
    (((prepareAddressGroups [1, 2, 3, 5, 7, 8]).2.flatMap fun g => g.2.2) =
      (prepareAddressGroups [1, 2, 3, 5, 7, 8]).1) ∧
    prepareAddressGroups ([] : List ℕ) = ([], []) ∧
    (prepareAddressGroups [1, 2, 3, 5, 7, 8]).2.length ≤ 3 :=
  ⟨(prepare_address_groups_spec [1, 2, 3, 5, 7, 8]).1,
   (prepare_address_groups_spec []).2.2.2.2.2.2.1 rfl,
   (prepare_address_groups_spec [1, 2, 3, 5, 7, 8]).2.2.2.2.2.2.2
     [(1, 3), (5, 1), (7, 2)] (by intro x; simp; omega)⟩

/-! ### Refresh step characterizations -/

theorem statusStep_cases (dev : Device) (st st' : InventoryState)
    (h : statusStep dev st = some st') :
    (st.statusRequired = false ∧ st' = st) ∨
    (st.statusRequired = true ∧ ∃ s, readStatus dev st.sectorCount = some s ∧
      st' = { st with cachedStatus := some s }) := by
  unfold statusStep at h
  split at h
  · next hreq =>
      right
      rcases Option.map_eq_some'.mp h with ⟨s, hs, hf⟩
      exact ⟨hreq, s, hs, hf.symm⟩
  · next hreq =>
      left
      injection h with h
      exact ⟨Bool.not_eq_true _ ▸ hreq, h.symm⟩

theorem inputsStep_cases (dev : Device) (st st' : InventoryState)
    (h : inputsStep dev st = some st') :
    (st.discreteInputs.isEmpty ∧ st' = st) ∨
    (∃ m, readDiscreteInputsAll dev st.discreteInputs = some m ∧
      st' = { st with cachedInputs := m }) := by
  unfold inputsStep at h
  split at h
  · next he =>
      left
      injection h with h
      exact ⟨he, h.symm⟩
  · right
    rcases Option.map_eq_some'.mp h with ⟨m, hm, hf⟩
    exact ⟨m, hm, hf.symm⟩

theorem coilsStep_cases (dev : Device) (st st' : InventoryState)
    (h : coilsStep dev st = some st') :
    (st.coils.isEmpty ∧ st' = st) ∨
    (∃ m, readCoilsAll dev st.coils = some m ∧
      st' = { st with cachedCoils := m }) := by
  unfold coilsStep at h
  split at h
  · next he =>
      left
      injection h with h
      exact ⟨he, h.symm⟩
  · right
    rcases Option.map_eq_some'.mp h with ⟨m, hm, hf⟩
    exact ⟨m, hm, hf.symm⟩

theorem registersStep_cases (dev : Device) (st st' : InventoryState)
    (h : registersStep dev st = some st') :
    (st.holdingRegisters.isEmpty ∧ st' = st) ∨
    (∃ m, readHoldingRegistersAll dev st.holdingRegisters = some m ∧
      st' = { st with cachedRegisters := m }) := by
  unfold registersStep at h
  split at h
  · next he =>
      left
      injection h with h
      exact ⟨he, h.symm⟩
  · right
    rcases Option.map_eq_some'.mp h with ⟨m, hm, hf⟩
    exact ⟨m, hm, hf.symm⟩

theorem statusStep_frame (dev : Device) (st st' : InventoryState)
    (h : statusStep dev st = some st') :
    st'.sectorCount = st.sectorCount ∧ st'.statusRequired = st.statusRequired ∧
    st'.discreteInputs = st.discreteInputs ∧ st'.coils = st.coils ∧
    st'.holdingRegisters = st.holdingRegisters ∧
    st'.cachedInputs = st.cachedInputs ∧ st'.cachedCoils = st.cachedCoils ∧
    st'.cachedRegisters = st.cachedRegisters := by
  rcases statusStep_cases dev st st' h with ⟨_, rfl⟩ | ⟨_, s, _, rfl⟩ <;>
    exact ⟨rfl, rfl, rfl, rfl, rfl, rfl, rfl, rfl⟩

theorem inputsStep_frame (dev : Device) (st st' : InventoryState)
    (h : inputsStep dev st = some st') :
    st'.sectorCount = st.sectorCount ∧ st'.statusRequired = st.statusRequired ∧
    st'.discreteInputs = st.discreteInputs ∧ st'.coils = st.coils ∧
    st'.holdingRegisters = st.holdingRegisters ∧
    st'.cachedStatus = st.cachedStatus ∧ st'.cachedCoils = st.cachedCoils ∧
    st'.cachedRegisters = st.cachedRegisters := by
  rcases inputsStep_cases dev st st' h with ⟨_, rfl⟩ | ⟨m, _, rfl⟩ <;>
    exact ⟨rfl, rfl, rfl, rfl, rfl, rfl, rfl, rfl⟩

theorem coilsStep_frame (dev : Device) (st st' : InventoryState)
    (h : coilsStep dev st = some st') :
    st'.sectorCount = st.sectorCount ∧ st'.statusRequired = st.statusRequired ∧
    st'.discreteInputs = st.discreteInputs ∧ st'.coils = st.coils ∧
    st'.holdingRegisters = st.holdingRegisters ∧
    st'.cachedStatus = st.cachedStatus ∧ st'.cachedInputs = st.cachedInputs ∧
    st'.cachedRegisters = st.cachedRegisters := by
  rcases coilsStep_cases dev st st' h with ⟨_, rfl⟩ | ⟨m, _, rfl⟩ <;>
    exact ⟨rfl, rfl, rfl, rfl, rfl, rfl, rfl, rfl⟩

/-! ### C1: failed refresh, cache atomicity -/

/-- **C1 counterexample.** In the reachable state `stStatusInput` (status
required, discrete input 0 registered) against a device whose status reads
succeed but whose read of address 0 fails, `refresh` fails (no snapshot)
yet the cached status has already been overwritten: the cache is not left
exactly as it was before the refresh. -/
theorem refresh_failure_counterexample :
    (refresh statusOnlyDev stStatusInput).1 = none ∧
    (refresh statusOnlyDev stStatusInput).2.cachedStatus ≠
      stStatusInput.cachedStatus := by
  decide

/-- **C1 (amended).** If any read during `refresh` fails then no snapshot is
returned and the transport failure propagates, the registered sets are
unchanged, and the caches are committed class-by-class along the fixed order
status → discrete inputs → coils → holding registers: the final state is
exactly the state after the longest successful prefix of class reads (each
committed class having completed fully), while the failing class and all
later classes — always including the holding-register cache — keep their
previous values. -/
theorem refresh_failure_classwise (dev : Device) (st : InventoryState)
    (h : (refresh dev st).1 = none) :
    (refresh dev st).2.sectorCount = st.sectorCount ∧
    (refresh dev st).2.statusRequired = st.statusRequired ∧
    (refresh dev st).2.discreteInputs = st.discreteInputs ∧
    (refresh dev st).2.coils = st.coils ∧
    (refresh dev st).2.holdingRegisters = st.holdingRegisters ∧
    (refresh dev st).2.cachedRegisters = st.cachedRegisters ∧
    ((refresh dev st).2 = st ∨
      (∃ st1, statusStep dev st = some st1 ∧
        ((refresh dev st).2 = st1 ∨
          (∃ st2, inputsStep dev st1 = some st2 ∧
            ((refresh dev st).2 = st2 ∨
              (∃ st3, coilsStep dev st2 = some st3 ∧
                (refresh dev st).2 = st3)))))) := by
  rcases hs : statusStep dev st with _ | st1
  · have hr : refresh dev st = (none, st) := by
      simp [refresh, hs]
    rw [hr]
    exact ⟨rfl, rfl, rfl, rfl, rfl, rfl, Or.inl rfl⟩
  · have f1 := statusStep_frame dev st st1 hs
    rcases hi : inputsStep dev st1 with _ | st2
    · have hr : refresh dev st = (none, st1) := by
        simp [refresh, hs, hi]
      rw [hr]
      exact ⟨f1.1, f1.2.1, f1.2.2.1, f1.2.2.2.1, f1.2.2.2.2.1, f1.2.2.2.2.2.2.2,
        Or.inr ⟨st1, rfl, Or.inl rfl⟩⟩
    · have f2 := inputsStep_frame dev st1 st2 hi
      rcases hc : coilsStep dev st2 with _ | st3
      · have hr : refresh dev st = (none, st2) := by
          simp [refresh, hs, hi, hc]
        rw [hr]
        refine ⟨?_, ?_, ?_, ?_, ?_, ?_, Or.inr ⟨st1, rfl, Or.inr ⟨st2, hi, Or.inl rfl⟩⟩⟩
        · rw [f2.1, f1.1]
        · rw [f2.2.1, f1.2.1]
        · rw [f2.2.2.1, f1.2.2.1]
        · rw [f2.2.2.2.1, f1.2.2.2.1]
        · rw [f2.2.2.2.2.1, f1.2.2.2.2.1]
        · rw [f2.2.2.2.2.2.2.2, f1.2.2.2.2.2.2.2]
      · have f3 := coilsStep_frame dev st2 st3 hc
        rcases hg : registersStep dev st3 with _ | st4
        · have hr : refresh dev st = (none, st3) := by
            simp [refresh, hs, hi, hc, hg]
          rw [hr]
          refine ⟨?_, ?_, ?_, ?_, ?_, ?_,
            Or.inr ⟨st1, rfl, Or.inr ⟨st2, hi, Or.inr ⟨st3, hc, rfl⟩⟩⟩⟩
          · rw [f3.1, f2.1, f1.1]
          · rw [f3.2.1, f2.2.1, f1.2.1]
          · rw [f3.2.2.1, f2.2.2.1, f1.2.2.1]
          · rw [f3.2.2.2.1, f2.2.2.2.1, f1.2.2.2.1]
          · rw [f3.2.2.2.2.1, f2.2.2.2.2.1, f1.2.2.2.2.1]
          · rw [f3.2.2.2.2.2.2.2, f2.2.2.2.2.2.2.2, f1.2.2.2.2.2.2.2]
        · exfalso
          have : (refresh dev st).1 =
              some ⟨st4.cachedStatus, st4.cachedInputs, st4.cachedCoils,
                st4.cachedRegisters⟩ := by
            simp [refresh, hs, hi, hc, hg]
          rw [this] at h
          cases h

/-- **C1 witness.** `refresh_failure_classwise` applied to the concrete
failing refresh of the counterexample state. -/
theorem refresh_failure_classwise_witness :
    (refresh statusOnlyDev stStatusInput).1 = none ∧
    ((refresh statusOnlyDev stStatusInput).2.sectorCount =
        stStatusInput.sectorCount ∧
      (refresh statusOnlyDev stStatusInput).2.statusRequired =
        stStatusInput.statusRequired ∧
      (refresh statusOnlyDev stStatusInput).2.discreteInputs =
        stStatusInput.discreteInputs ∧
      (refresh statusOnlyDev stStatusInput).2.coils = stStatusInput.coils ∧
      (refresh statusOnlyDev stStatusInput).2.holdingRegisters =
        stStatusInput.holdingRegisters ∧
      (refresh statusOnlyDev stStatusInput).2.cachedRegisters =
        stStatusInput.cachedRegisters ∧
      ((refresh statusOnlyDev stStatusInput).2 = stStatusInput ∨
        (∃ st1, statusStep statusOnlyDev stStatusInput = some st1 ∧
          ((refresh statusOnlyDev stStatusInput).2 = st1 ∨
            (∃ st2, inputsStep statusOnlyDev st1 = some st2 ∧
              ((refresh statusOnlyDev stStatusInput).2 = st2 ∨
                (∃ st3, coilsStep statusOnlyDev st2 = some st3 ∧
                  (refresh statusOnlyDev stStatusInput).2 = st3))))))) :=
  ⟨by decide, refresh_failure_classwise statusOnlyDev stStatusInput (by decide)⟩

/-! ### C3: snapshot key discipline -/

theorem mem_dictKeys_set {α : Type} (d : List (ℕ × α)) (k x : ℕ) (v : α) :
    x ∈ dictKeys (dictSet d k v) ↔ x = k ∨ x ∈ dictKeys d := by
  induction d with
  | nil => simp [dictSet, dictKeys]
  | cons p rest ih =>
      obtain ⟨k₀, v₀⟩ := p
      simp only [dictSet]
      split
      · next h =>
          subst h
          simp only [dictKeys, List.map_cons, List.mem_cons]
          tauto
      · next h =>
          simp only [dictKeys, List.map_cons, List.mem_cons]
          rw [show List.map Prod.fst (dictSet rest k v) = dictKeys (dictSet rest k v)
            from rfl, ih]
          tauto

theorem foldl_dictSet_keys {α : Type} (f : ℕ × ℕ → α) :
    ∀ (ps : List (ℕ × ℕ)) (d : List (ℕ × α)) (x : ℕ),
      x ∈ dictKeys (ps.foldl (fun acc p => dictSet acc p.2 (f p)) d) →
      x ∈ dictKeys d ∨ ∃ p ∈ ps, p.2 = x := by
  intro ps
  induction ps with
  | nil => exact fun d x hx => Or.inl hx
  | cons p rest ih =>
      intro d x hx
      simp only [List.foldl_cons] at hx
      rcases ih _ x hx with hd | ⟨q, hq, hqx⟩
      · rcases (mem_dictKeys_set d p.2 x (f p)).mp hd with rfl | hd0
        · exact Or.inr ⟨p, List.mem_cons_self p rest, rfl⟩
        · exact Or.inl hd0
      · exact Or.inr ⟨q, List.mem_cons_of_mem _ hq, hqx⟩

theorem distributeBits_keys (d : List (ℕ × Bool)) (members : List ℕ)
    (bits : List Bool) (x : ℕ) (hx : x ∈ dictKeys (distributeBits d members bits)) :
    x ∈ dictKeys d ∨ x ∈ members := by
  rcases foldl_dictSet_keys (fun p => bits.getD p.1 false) members.enum d x hx with
    h | ⟨p, hp, rfl⟩
  · exact Or.inl h
  · exact Or.inr (List.enum_map_snd members ▸ List.mem_map_of_mem Prod.snd hp)

theorem distributeRegisters_keys (d : List (ℕ × Option ℕ)) (members : List ℕ)
    (registers : List ℕ) (x : ℕ)
    (hx : x ∈ dictKeys (distributeRegisters d members registers)) :
    x ∈ dictKeys d ∨ x ∈ members := by
  rcases foldl_dictSet_keys (fun p => registers[p.1]?) members.enum d x hx with
    h | ⟨p, hp, rfl⟩
  · exact Or.inl h
  · exact Or.inr (List.enum_map_snd members ▸ List.mem_map_of_mem Prod.snd hp)

theorem readGroupsBool_keys (read : ℕ → ℕ → Option (List Bool)) :
    ∀ (groups : List (ℕ × ℕ × List ℕ)) (d r : List (ℕ × Bool)),
      readGroupsBool read groups d = some r →
      ∀ x ∈ dictKeys r, x ∈ dictKeys d ∨ ∃ g ∈ groups, x ∈ g.2.2 := by
  intro groups
  induction groups with
  | nil =>
      intro d r h x hx
      injection h with h
      subst h
      exact Or.inl hx
  | cons g rest ih =>
      intro d r h x hx
      obtain ⟨start, count, members⟩ := g
      simp only [readGroupsBool] at h
      cases hrd : read start count with
      | none => rw [hrd] at h; cases h
      | some bits =>
          rw [hrd] at h
          rcases ih _ r h x hx with hd | ⟨g', hg', hx'⟩
          · rcases distributeBits_keys d members bits x hd with hd0 | hm
            · exact Or.inl hd0
            · exact Or.inr ⟨(start, count, members), List.mem_cons_self _ _, hm⟩
          · exact Or.inr ⟨g', List.mem_cons_of_mem _ hg', hx'⟩

theorem readGroupsRegisters_keys (read : ℕ → ℕ → Option (List ℕ)) :
    ∀ (groups : List (ℕ × ℕ × List ℕ)) (d r : List (ℕ × Option ℕ)),
      readGroupsRegisters read groups d = some r →
      ∀ x ∈ dictKeys r, x ∈ dictKeys d ∨ ∃ g ∈ groups, x ∈ g.2.2 := by
  intro groups
  induction groups with
  | nil =>
      intro d r h x hx
      injection h with h
      subst h
      exact Or.inl hx
  | cons g rest ih =>
      intro d r h x hx
      obtain ⟨start, count, members⟩ := g
      simp only [readGroupsRegisters] at h
      cases hrd : read start count with
      | none => rw [hrd] at h; cases h
      | some registers =>
          rw [hrd] at h
          rcases ih _ r h x hx with hd | ⟨g', hg', hx'⟩
          · rcases distributeRegisters_keys d members registers x hd with hd0 | hm
            · exact Or.inl hd0
            · exact Or.inr ⟨(start, count, members), List.mem_cons_self _ _, hm⟩
          · exact Or.inr ⟨g', List.mem_cons_of_mem _ hg', hx'⟩

theorem mem_of_mem_groups (addresses : List ℕ) (g : ℕ × ℕ × List ℕ)
    (hg : g ∈ (prepareAddressGroups addresses).2) (x : ℕ) (hx : x ∈ g.2.2) :
    x ∈ addresses := by
  have hspec := prepareAddressGroups_props addresses
  have hflat : x ∈ (prepareAddressGroups addresses).2.flatMap fun g => g.2.2 :=
    List.mem_flatMap.mpr ⟨g, hg, hx⟩
  rw [hspec.1] at hflat
  exact (hspec.2.1 x).mp hflat

theorem readDiscreteInputsAll_keys (dev : Device) (addrs : List ℕ)
    (r : List (ℕ × Bool)) (h : readDiscreteInputsAll dev addrs = some r) :
    ∀ x ∈ dictKeys r, x ∈ addrs := by
  intro x hx
  rcases readGroupsBool_keys dev.readDiscreteInputs _ [] r h x hx with h0 | ⟨g, hg, hxg⟩
  · cases h0
  · exact mem_of_mem_groups addrs g hg x hxg

theorem readCoilsAll_keys (dev : Device) (addrs : List ℕ)
    (r : List (ℕ × Bool)) (h : readCoilsAll dev addrs = some r) :
    ∀ x ∈ dictKeys r, x ∈ addrs := by
  intro x hx
  rcases readGroupsBool_keys dev.readCoils _ [] r h x hx with h0 | ⟨g, hg, hxg⟩
  · cases h0
  · exact mem_of_mem_groups addrs g hg x hxg

theorem readHoldingRegistersAll_keys (dev : Device) (addrs : List ℕ)
    (r : List (ℕ × Option ℕ)) (h : readHoldingRegistersAll dev addrs = some r) :
    ∀ x ∈ dictKeys r, x ∈ addrs := by
  intro x hx
  rcases readGroupsRegisters_keys dev.readHoldingRegisters _ [] r h x hx with
    h0 | ⟨g, hg, hxg⟩
  · cases h0
  · exact mem_of_mem_groups addrs g hg x hxg

theorem addAddresses_mono (dst addresses : List ℕ) (x : ℕ) (hx : x ∈ dst) :
    x ∈ addAddresses dst addresses := by
  unfold addAddresses
  induction addresses generalizing dst with
  | nil => exact hx
  | cons a rest ih =>
      simp only [List.foldl_cons]
      apply ih
      split
      · exact hx
      · exact List.mem_append_left _ hx

theorem registersStep_frame (dev : Device) (st st' : InventoryState)
    (h : registersStep dev st = some st') :
    st'.sectorCount = st.sectorCount ∧ st'.statusRequired = st.statusRequired ∧
    st'.discreteInputs = st.discreteInputs ∧ st'.coils = st.coils ∧
    st'.holdingRegisters = st.holdingRegisters ∧
    st'.cachedStatus = st.cachedStatus ∧ st'.cachedInputs = st.cachedInputs ∧
    st'.cachedCoils = st.cachedCoils := by
  rcases registersStep_cases dev st st' h with ⟨_, rfl⟩ | ⟨m, _, rfl⟩ <;>
    exact ⟨rfl, rfl, rfl, rfl, rfl, rfl, rfl, rfl⟩

theorem invKeys_statusStep (dev : Device) (st st' : InventoryState)
    (h : statusStep dev st = some st') (hi : InvKeys st) : InvKeys st' := by
  rcases statusStep_cases dev st st' h with ⟨_, rfl⟩ | ⟨_, s, _, rfl⟩ <;> exact hi

theorem invKeys_inputsStep (dev : Device) (st st' : InventoryState)
    (h : inputsStep dev st = some st') (hi : InvKeys st) : InvKeys st' := by
  rcases inputsStep_cases dev st st' h with ⟨_, rfl⟩ | ⟨m, hm, rfl⟩
  · exact hi
  · exact ⟨fun k hk => readDiscreteInputsAll_keys dev st.discreteInputs m hm k hk,
      hi.2⟩

theorem invKeys_coilsStep (dev : Device) (st st' : InventoryState)
    (h : coilsStep dev st = some st') (hi : InvKeys st) : InvKeys st' := by
  rcases coilsStep_cases dev st st' h with ⟨_, rfl⟩ | ⟨m, _, rfl⟩ <;> exact hi

theorem invKeys_registersStep (dev : Device) (st st' : InventoryState)
    (h : registersStep dev st = some st') (hi : InvKeys st) : InvKeys st' := by
  rcases registersStep_cases dev st st' h with ⟨_, rfl⟩ | ⟨m, hm, rfl⟩
  · exact hi
  · exact ⟨hi.1,
      fun k hk => readHoldingRegistersAll_keys dev st.holdingRegisters m hm k hk⟩

theorem invKeys_refresh_snd (dev : Device) (st : InventoryState)
    (h : InvKeys st) : InvKeys (refresh dev st).2 := by
  rcases hs : statusStep dev st with _ | st1
  · rw [show refresh dev st = (none, st) by simp [refresh, hs]]
    exact h
  · have h1 := invKeys_statusStep dev st st1 hs h
    rcases hi : inputsStep dev st1 with _ | st2
    · rw [show refresh dev st = (none, st1) by simp [refresh, hs, hi]]
      exact h1
    · have h2 := invKeys_inputsStep dev st1 st2 hi h1
      rcases hc : coilsStep dev st2 with _ | st3
      · rw [show refresh dev st = (none, st2) by simp [refresh, hs, hi, hc]]
        exact h2
      · have h3 := invKeys_coilsStep dev st2 st3 hc h2
        rcases hg : registersStep dev st3 with _ | st4
        · rw [show refresh dev st = (none, st3) by simp [refresh, hs, hi, hc, hg]]
          exact h3
        · have h4 := invKeys_registersStep dev st3 st4 hg h3
          rw [show refresh dev st =
            (some ⟨st4.cachedStatus, st4.cachedInputs, st4.cachedCoils,
              st4.cachedRegisters⟩, st4) by simp [refresh, hs, hi, hc, hg]]
          exact h4

theorem invKeys_applyOp (st : InventoryState) (p : Op × Device)
    (h : InvKeys st) : InvKeys (applyOp st p) := by
  obtain ⟨op, dev⟩ := p
  cases op with
  | requireStatusOp => exact h
  | addDiscreteInputsOp l =>
      exact ⟨fun k hk => addAddresses_mono _ l k (h.1 k hk), h.2⟩
  | addCoilsOp l => exact h
  | addHoldingRegistersOp l =>
      exact ⟨h.1, fun k hk => addAddresses_mono _ l k (h.2 k hk)⟩
  | writeCoilOp a v =>
      show InvKeys ((writeCoil dev a v st).getD st)
      unfold writeCoil
      split
      · exact h
      · exact h
  | writeCoilsOp s vs =>
      show InvKeys ((writeCoils dev s vs st).getD st)
      unfold writeCoils
      split
      · exact h
      · split
        · exact h
        · exact h
  | refreshOp => exact invKeys_refresh_snd dev st h

theorem invKeys_runOps (n : ℕ) (ops : List (Op × Device)) :
    InvKeys (runOps n ops) := by
  unfold runOps
  have hgen : ∀ st, InvKeys st → InvKeys (ops.foldl applyOp st) := by
    induction ops with
    | nil => exact fun st h => h
    | cons p rest ih => exact fun st h => ih _ (invKeys_applyOp st p h)
  apply hgen
  exact ⟨fun k hk => absurd hk (by simp [initState, dictKeys]),
    fun k hk => absurd hk (by simp [initState, dictKeys])⟩

/-- **C3 counterexample.** Starting from a fresh inventory, a successful
`write_coil` to the unregistered address 5 followed by `refresh` produces a
snapshot whose coil map contains key 5 even though 5 is not in the
registered coil set. -/
theorem snapshot_unregistered_coil_counterexample :
    (refresh okDev stWrite5).1 = some ⟨none, [], [(5, true)], []⟩ ∧
    5 ∉ stWrite5.coils := by
  decide

/-- **C3 (amended).** For every operation sequence from a fresh inventory,
the snapshot returned by a successful refresh contains no discrete-input key
outside the registered discrete-input set and no holding-register key
outside the registered holding-register set; a coil key is either in the
registered coil set or was already in the coil cache before the refresh
(which can hold unregistered addresses only through earlier `write_coil`
calls, the one unconditional cache write). -/
theorem refresh_snapshot_keys (n : ℕ) (ops : List (Op × Device)) (dev : Device)
    (snap : ElmoInventorySnapshot)
    (h : (refresh dev (runOps n ops)).1 = some snap) :
    (∀ k ∈ dictKeys snap.discreteInputs, k ∈ (runOps n ops).discreteInputs) ∧
    (∀ k ∈ dictKeys snap.holdingRegisters, k ∈ (runOps n ops).holdingRegisters) ∧
    (∀ k ∈ dictKeys snap.coils,
      k ∈ (runOps n ops).coils ∨ k ∈ dictKeys (runOps n ops).cachedCoils) := by
  have hInv : InvKeys (runOps n ops) := invKeys_runOps n ops
  revert h
  generalize runOps n ops = st at hInv ⊢
  intro h
  rcases hs : statusStep dev st with _ | st1
  · rw [show refresh dev st = (none, st) by simp [refresh, hs]] at h
    cases h
  · obtain ⟨_, _, hdi1, hco1, hhr1, hin1, hcc1, hcr1⟩ := statusStep_frame dev st st1 hs
    have h1 := invKeys_statusStep dev st st1 hs hInv
    rcases hi : inputsStep dev st1 with _ | st2
    · rw [show refresh dev st = (none, st1) by simp [refresh, hs, hi]] at h
      cases h
    · obtain ⟨_, _, hdi2, hco2, hhr2, _, hcc2, hcr2⟩ := inputsStep_frame dev st1 st2 hi
      have h2 := invKeys_inputsStep dev st1 st2 hi h1
      rcases hc : coilsStep dev st2 with _ | st3
      · rw [show refresh dev st = (none, st2) by simp [refresh, hs, hi, hc]] at h
        cases h
      · obtain ⟨_, _, hdi3, hco3, hhr3, _, hin3, hcr3⟩ := coilsStep_frame dev st2 st3 hc
        have h3 := invKeys_coilsStep dev st2 st3 hc h2
        rcases hg : registersStep dev st3 with _ | st4
        · rw [show refresh dev st = (none, st3) by
            simp [refresh, hs, hi, hc, hg]] at h
          cases h
        · obtain ⟨_, _, hdi4, hco4, hhr4, _, hin4, hcc4⟩ :=
            registersStep_frame dev st3 st4 hg
          have h4 := invKeys_registersStep dev st3 st4 hg h3
          rw [show refresh dev st =
            (some ⟨st4.cachedStatus, st4.cachedInputs, st4.cachedCoils,
              st4.cachedRegisters⟩, st4) by simp [refresh, hs, hi, hc, hg]] at h
          injection h with h
          subst h
          refine ⟨?_, ?_, ?_⟩
          · intro k hk
            have hmem := h4.1 k hk
            rw [hdi4, hdi3, hdi2, hdi1] at hmem
            exact hmem
          · intro k hk
            have hmem := h4.2 k hk
            rw [hhr4, hhr3, hhr2, hhr1] at hmem
            exact hmem
          · intro k hk
            rw [hcc4] at hk
            rcases coilsStep_cases dev st2 st3 hc with ⟨_, hst3⟩ | ⟨m, hm, hst3⟩
            · subst hst3
              rw [hcc2, hcc1] at hk
              exact Or.inr hk
            · subst hst3
              have := readCoilsAll_keys dev st2.coils m hm k hk
              rw [hco2, hco1] at this
              exact Or.inl this

/-- **C3 witness (amended).** `refresh_snapshot_keys` applied to the
counterexample run: the single unregistered coil key 5 in the snapshot is
accounted for by the coil cache. -/
theorem refresh_snapshot_keys_witness :
    (refresh okDev (runOps 64 [(.writeCoilOp 5 true, okDev)])).1 =
      some ⟨none, [], [(5, true)], []⟩ ∧
    ((∀ k ∈ dictKeys (ElmoInventorySnapshot.mk none [] [(5, true)] []).discreteInputs,
        k ∈ (runOps 64 [(.writeCoilOp 5 true, okDev)]).discreteInputs) ∧
      (∀ k ∈ dictKeys (ElmoInventorySnapshot.mk none [] [(5, true)] []).holdingRegisters,
        k ∈ (runOps 64 [(.writeCoilOp 5 true, okDev)]).holdingRegisters) ∧
      (∀ k ∈ dictKeys (ElmoInventorySnapshot.mk none [] [(5, true)] []).coils,
        k ∈ (runOps 64 [(.writeCoilOp 5 true, okDev)]).coils ∨
          k ∈ dictKeys (runOps 64 [(.writeCoilOp 5 true, okDev)]).cachedCoils)) :=
  ⟨by decide, refresh_snapshot_keys 64 [(.writeCoilOp 5 true, okDev)] okDev
    ⟨none, [], [(5, true)], []⟩ (by decide)⟩

/-! ### C6: batched coil write cache frame -/

theorem dictMem_set_ne {α : Type} (d : List (ℕ × α)) (k k' : ℕ) (v : α)
    (h : k ≠ k') : dictMem (dictSet d k v) k' = dictMem d k' := by
  unfold dictMem
  rw [dictLookup_set_ne d k k' v h]

theorem writeCoilsLoop_lookup_outside (cs : List ℕ) (vs : List Bool) :
    ∀ (d : List (ℕ × Bool)) (start a : ℕ),
      (a < start ∨ start + vs.length ≤ a) →
      dictLookup (writeCoilsLoop cs d start vs) a = dictLookup d a := by
  induction vs with
  | nil => intro d start a _; rfl
  | cons v rest ih =>
      intro d start a h
      have hlen : (v :: rest).length = rest.length + 1 := rfl
      rw [hlen] at h
      simp only [writeCoilsLoop]
      rw [ih _ (start + 1) a (by omega)]
      split
      · exact dictLookup_set_ne d start a v (by omega)
      · rfl

theorem writeCoilsLoop_tracked (cs : List ℕ) (vs : List Bool) :
    ∀ (d : List (ℕ × Bool)) (start i : ℕ), i < vs.length →
      (start + i ∈ cs ∨ dictMem d (start + i) = true) →
      dictLookup (writeCoilsLoop cs d start vs) (start + i) =
        some (vs.getD i false) := by
  induction vs with
  | nil => intro d start i hi _; exact absurd hi (by simp)
  | cons v rest ih =>
      intro d start i hi hcond
      simp only [writeCoilsLoop]
      cases i with
      | zero =>
          simp only [Nat.add_zero] at hcond ⊢
          rw [writeCoilsLoop_lookup_outside cs rest _ (start + 1) start
            (Or.inl (by omega))]
          rw [if_pos hcond]
          exact dictLookup_set_self d start v
      | succ j =>
          have hA : start + (j + 1) = (start + 1) + j := by omega
          have hne : start ≠ (start + 1) + j := by omega
          rw [hA] at hcond ⊢
          have hj : j < rest.length := by
            have : (v :: rest).length = rest.length + 1 := rfl
            omega
          by_cases hd : start ∈ cs ∨ dictMem d start = true
          · rw [if_pos hd]
            refine ih (dictSet d start v) (start + 1) j hj ?_
            rcases hcond with hl | hr
            · exact Or.inl hl
            · exact Or.inr (by rw [dictMem_set_ne d start _ v hne]; exact hr)
          · rw [if_neg hd]
            exact ih d (start + 1) j hj hcond

theorem writeCoilsLoop_untracked (cs : List ℕ) (vs : List Bool) :
    ∀ (d : List (ℕ × Bool)) (start i : ℕ), i < vs.length →
      ¬(start + i ∈ cs ∨ dictMem d (start + i) = true) →
      dictLookup (writeCoilsLoop cs d start vs) (start + i) =
        dictLookup d (start + i) := by
  induction vs with
  | nil => intro d start i hi _; exact absurd hi (by simp)
  | cons v rest ih =>
      intro d start i hi hcond
      simp only [writeCoilsLoop]
      cases i with
      | zero =>
          simp only [Nat.add_zero] at hcond ⊢
          rw [writeCoilsLoop_lookup_outside cs rest _ (start + 1) start
            (Or.inl (by omega))]
          rw [if_neg hcond]
      | succ j =>
          have hA : start + (j + 1) = (start + 1) + j := by omega
          have hne : start ≠ (start + 1) + j := by omega
          rw [hA] at hcond ⊢
          have hj : j < rest.length := by
            have : (v :: rest).length = rest.length + 1 := rfl
            omega
          by_cases hd : start ∈ cs ∨ dictMem d start = true
          · rw [if_pos hd]
            have hcond' :
                ¬((start + 1) + j ∈ cs ∨
                  dictMem (dictSet d start v) ((start + 1) + j) = true) := by
              rw [dictMem_set_ne d start _ v hne]
              exact hcond
            rw [ih (dictSet d start v) (start + 1) j hj hcond']
            exact dictLookup_set_ne d start _ v hne
          · rw [if_neg hd]
            exact ih d (start + 1) j hj hcond

/-- **C6.** A successful `write_coils(start, values)` with a non-empty
payload updates the cached coil value at `start + i` to `values[i]` exactly
when `start + i` is registered or already cached, leaves all other coil
cache entries (inside and outside the span) unchanged, and does not touch
any other inventory field. -/
theorem write_coils_cache_spec (dev : Device) (st : InventoryState)
    (start : ℕ) (values : List Bool) (hne : values ≠ [])
    (hok : dev.writeCoils start values = true) :
    ∃ st', writeCoils dev start values st = some st' ∧
      st'.sectorCount = st.sectorCount ∧ st'.statusRequired = st.statusRequired ∧
      st'.discreteInputs = st.discreteInputs ∧ st'.coils = st.coils ∧
      st'.holdingRegisters = st.holdingRegisters ∧
      st'.cachedStatus = st.cachedStatus ∧ st'.cachedInputs = st.cachedInputs ∧
      st'.cachedRegisters = st.cachedRegisters ∧
      (∀ i, i < values.length →
        ((start + i ∈ st.coils ∨ dictMem st.cachedCoils (start + i) = true) →
          dictLookup st'.cachedCoils (start + i) = some (values.getD i false)) ∧
        (¬(start + i ∈ st.coils ∨ dictMem st.cachedCoils (start + i) = true) →
          dictLookup st'.cachedCoils (start + i) =
            dictLookup st.cachedCoils (start + i))) ∧
      (∀ a, a < start ∨ start + values.length ≤ a →
        dictLookup st'.cachedCoils a = dictLookup st.cachedCoils a) := by
  refine ⟨{ st with
      cachedCoils := writeCoilsLoop st.coils st.cachedCoils start values },
    ?_, rfl, rfl, rfl, rfl, rfl, rfl, rfl, rfl, ?_, ?_⟩
  · unfold writeCoils
    rw [if_neg (by simpa using hne), if_pos hok]
  · intro i hi
    exact ⟨fun hc => writeCoilsLoop_tracked st.coils values st.cachedCoils
        start i hi hc,
      fun hc => writeCoilsLoop_untracked st.coils values st.cachedCoils
        start i hi hc⟩
  · intro a ha
    exact writeCoilsLoop_lookup_outside st.coils values st.cachedCoils start a ha

/-- **C6 witness.** The spec example: writing the span `[10, 13]` while only
address 11 is tracked updates only address 11's cache entry. -/
theorem write_coils_cache_spec_witness :
    [true, true, true, true] ≠ ([] : List Bool) ∧
    okDev.writeCoils 10 [true, true, true, true] = true ∧
    (∃ st', writeCoils okDev 10 [true, true, true, true] stCoil11 = some st' ∧
      st'.sectorCount = stCoil11.sectorCount ∧
      st'.statusRequired = stCoil11.statusRequired ∧
      st'.discreteInputs = stCoil11.discreteInputs ∧
      st'.coils = stCoil11.coils ∧
      st'.holdingRegisters = stCoil11.holdingRegisters ∧
      st'.cachedStatus = stCoil11.cachedStatus ∧
      st'.cachedInputs = stCoil11.cachedInputs ∧
      st'.cachedRegisters = stCoil11.cachedRegisters ∧
      (∀ i, i < [true, true, true, true].length →
        ((10 + i ∈ stCoil11.coils ∨
            dictMem stCoil11.cachedCoils (10 + i) = true) →
          dictLookup st'.cachedCoils (10 + i) =
            some ([true, true, true, true].getD i false)) ∧
        (¬(10 + i ∈ stCoil11.coils ∨
            dictMem stCoil11.cachedCoils (10 + i) = true) →
          dictLookup st'.cachedCoils (10 + i) =
            dictLookup stCoil11.cachedCoils (10 + i))) ∧
      (∀ a, a < 10 ∨ 10 + [true, true, true, true].length ≤ a →
        dictLookup st'.cachedCoils a = dictLookup stCoil11.cachedCoils a)) :=
  ⟨by decide, by decide,
    write_coils_cache_spec okDev stCoil11 10 [true, true, true, true]
      (by decide) (by decide)⟩

/-! ### C2: exact-match state derivation -/

theorem chain_modeIdx_lt (p : Mode × Finset ℕ) (rest : List (Mode × Finset ℕ))
    (h : List.Chain' (fun a b => modeIdx a.1 < modeIdx b.1) (p :: rest)) :
    ∀ q ∈ rest, modeIdx p.1 < modeIdx q.1 := by
  induction rest generalizing p with
  | nil => intro q hq; cases hq
  | cons r rest ih =>
      intro q hq
      have h1 : modeIdx p.1 < modeIdx r.1 := (List.chain'_cons.mp h).1
      rcases List.mem_cons.mp hq with rfl | hq'
      · exact h1
      · exact lt_trans h1 (ih r (List.chain'_cons.mp h).2 q hq')

theorem find_exact_min (R : Finset ℕ) :
    ∀ (modes : List (Mode × Finset ℕ)),
      List.Chain' (fun p q => modeIdx p.1 < modeIdx q.1) modes →
      ∀ m, (m, R) ∈ modes →
        (∀ p ∈ modes, p.2 = R → modeIdx m ≤ modeIdx p.1) →
        (modes.map fun p => (MODE_TO_STATE p.1, p.2)).find?
            (fun q => R = q.2) = some (MODE_TO_STATE m, R) := by
  intro modes
  induction modes with
  | nil => intro _ m hmem _; cases hmem
  | cons p rest ih =>
      intro hch m hmem hmin
      rw [List.map_cons]
      by_cases hR : p.2 = R
      · have hple : modeIdx m ≤ modeIdx p.1 := hmin p (List.mem_cons_self p rest) hR
        have hpm : p = (m, R) := by
          rcases List.mem_cons.mp hmem with rfl | hrest
          · rfl
          · exact absurd (chain_modeIdx_lt p rest hch (m, R) hrest)
              (by show ¬(modeIdx p.1 < modeIdx m); omega)
        subst hpm
        exact List.find?_cons_of_pos _ (by simp)
      · have hfind : (List.find? (fun q => decide (R = q.2))
            ((MODE_TO_STATE p.1, p.2) :: rest.map fun p => (MODE_TO_STATE p.1, p.2)))
            = List.find? (fun q => decide (R = q.2))
              (rest.map fun p => (MODE_TO_STATE p.1, p.2)) :=
          List.find?_cons_of_neg _ (by simp; exact fun he => hR he.symm)
        rw [hfind]
        have hmem' : (m, R) ∈ rest := by
          rcases List.mem_cons.mp hmem with heq | hrest
          · exact absurd (congrArg Prod.snd heq).symm hR
          · exact hrest
        exact ih (List.chain'_cons'.mp hch).2 m hmem'
          (fun q hq hq2 => hmin q (List.mem_cons_of_mem p hq) hq2)

/-- **C2 counterexample.** With the pathological configuration
`home := {1}`, `night := {1}` (identical sector sets, inserted in `MODES`
order away, home, night) and restricted armed set `{1}`, the code returns
`armed_home` — the first exact match in insertion order — although the
static priority table ranks night (2) above home (1), so the claimed
tie-break (away > night > home) predicts `armed_night`. -/
theorem alarm_state_tie_counterexample :
    alarmState [true] {1} [(Mode.home, {1}), (Mode.night, {1})] =
      AlarmState.armedHome ∧
    STATE_PRIORITY (MODE_TO_STATE Mode.home) <
      STATE_PRIORITY (MODE_TO_STATE Mode.night) ∧
    alarmState [true] {1} [(Mode.home, {1}), (Mode.night, {1})] ≠
      AlarmState.armedNight := by
  decide

/-- **C2 (amended).** When the restricted armed set equals some configured
mode's sector set, `alarm_state` returns the matching mode that comes first
in the fixed `MODES` insertion order away, home, night (so a unique exact
match yields that mode's state, an away tie yields away, but a home/night
tie yields home — not the static priority table, which would put night above
home). -/
theorem alarm_state_exact (bits : List Bool) (managed : Finset ℕ)
    (modes : List (Mode × Finset ℕ)) (hord : modesOrdered modes)
    (m : Mode) (hmem : (m, restrictedArmed bits managed) ∈ modes)
    (hne : restrictedArmed bits managed ≠ ∅)
    (hmin : ∀ p ∈ modes, p.2 = restrictedArmed bits managed →
      modeIdx m ≤ modeIdx p.1) :
    alarmState bits managed modes = MODE_TO_STATE m := by
  have hcard : ¬(restrictedArmed bits managed).card = 0 :=
    fun h => hne (Finset.card_eq_zero.mp h)
  have hfind := find_exact_min (restrictedArmed bits managed) modes hord m hmem hmin
  simp only [alarmState]
  rw [if_neg hcard, hfind]

/-- **C2 witness.** The amended tie-break at the counterexample
configuration: home wins the home/night tie. -/
theorem alarm_state_exact_witness :
    modesOrdered [(Mode.home, ({1} : Finset ℕ)), (Mode.night, {1})] ∧
    (Mode.home, restrictedArmed [true] {1}) ∈
      [(Mode.home, ({1} : Finset ℕ)), (Mode.night, {1})] ∧
    restrictedArmed [true] {1} ≠ ∅ ∧
    (∀ p ∈ [(Mode.home, ({1} : Finset ℕ)), (Mode.night, {1})],
      p.2 = restrictedArmed [true] {1} → modeIdx Mode.home ≤ modeIdx p.1) ∧
    alarmState [true] {1} [(Mode.home, {1}), (Mode.night, {1})] =
      MODE_TO_STATE Mode.home :=
  ⟨by decide, by decide, by decide, by decide,
    alarm_state_exact [true] {1} [(Mode.home, {1}), (Mode.night, {1})]
      (by decide) Mode.home (by decide) (by decide) (by decide)⟩

/-! ### C5: overlap-match state derivation -/

theorem keyGtB_self (k : ℕ × ℕ × ℕ) : keyGtB k k = false := by
  simp [keyGtB]

theorem keyGtB_asymm (a b : ℕ × ℕ × ℕ) (h1 : keyGtB a b = true)
    (h2 : keyGtB b a = true) : False := by
  simp only [keyGtB, Bool.or_eq_true, Bool.and_eq_true, decide_eq_true_eq,
    beq_iff_eq] at h1 h2
  omega

theorem keyGtB_of_lex (a b : ℕ × ℕ × ℕ)
    (h : b.1 < a.1 ∨ (b.1 = a.1 ∧ b.2.1 < a.2.1)) : keyGtB a b = true := by
  simp only [keyGtB, Bool.or_eq_true, Bool.and_eq_true, decide_eq_true_eq,
    beq_iff_eq]
  rcases h with h | ⟨h1, h2⟩
  · exact Or.inl h
  · exact Or.inr ⟨h1.symm, Or.inl h2⟩

theorem pickMax_foldl (x : ℕ × ℕ × AlarmState) :
    ∀ (ys : List (ℕ × ℕ × AlarmState)) (b : ℕ × ℕ × AlarmState),
      (b = x ∨ keyGtB (matchKey x) (matchKey b) = true) →
      (x ∈ ys ∨ b = x) →
      (∀ y ∈ ys, y = x ∨ keyGtB (matchKey x) (matchKey y) = true) →
      ys.foldl (fun best c =>
        if keyGtB (matchKey c) (matchKey best) then c else best) b = x := by
  intro ys
  induction ys with
  | nil =>
      intro b _ hmem _
      rcases hmem with hx | rfl
      · cases hx
      · rfl
  | cons y ys ih =>
      intro b hb hmem hall
      simp only [List.foldl_cons]
      rcases hall y (List.mem_cons_self y ys) with rfl | hgty
      · have hb' : (if keyGtB (matchKey y) (matchKey b) then y else b) = y := by
          rcases hb with rfl | hgtb
          · split <;> rfl
          · rw [if_pos hgtb]
        rw [hb']
        exact ih y (Or.inl rfl) (Or.inr rfl)
          (fun z hz => hall z (List.mem_cons_of_mem y hz))
      · have hxy : x ≠ y := by
          rintro rfl
          rw [keyGtB_self] at hgty
          cases hgty
        have hmem' : x ∈ ys ∨
            (if keyGtB (matchKey y) (matchKey b) then y else b) = x := by
          rcases hmem with hin | rfl
          · rcases List.mem_cons.mp hin with rfl | hin'
            · exact absurd rfl hxy
            · exact Or.inl hin'
          · split
            · next hgt => exact absurd hgty fun hgty' =>
                keyGtB_asymm _ _ hgty' hgt
            · exact Or.inr rfl
        have hb' : (if keyGtB (matchKey y) (matchKey b) then y else b) = x ∨
            keyGtB (matchKey x)
              (matchKey (if keyGtB (matchKey y) (matchKey b) then y else b))
              = true := by
          split
          · exact Or.inr hgty
          · exact hb
        exact ih _ hb' hmem' (fun z hz => hall z (List.mem_cons_of_mem y hz))

theorem pickMax_eq (x : ℕ × ℕ × AlarmState) (L : List (ℕ × ℕ × AlarmState))
    (hx : x ∈ L)
    (hall : ∀ y ∈ L, y = x ∨ keyGtB (matchKey x) (matchKey y) = true) :
    pickMax L = some x := by
  cases L with
  | nil => cases hx
  | cons b ys =>
      have hmem : x ∈ ys ∨ b = x := by
        rcases List.mem_cons.mp hx with rfl | hin
        · exact Or.inr rfl
        · exact Or.inl hin
      exact congrArg some (pickMax_foldl x ys b
        (hall b (List.mem_cons_self b ys)) hmem
        (fun z hz => hall z (List.mem_cons_of_mem b hz)))

/-- **C5.** When the restricted armed set matches no configured mode's set
exactly and does not cover the whole managed scope, `alarm_state` returns
the mode whose sector set has the strictly largest `(intersection size,
static priority)` pair — i.e. the largest non-zero intersection with ties
broken by the priority table {away: 3, night: 2, home: 1}. -/
theorem alarm_state_overlap (bits : List Bool) (managed : Finset ℕ)
    (modes : List (Mode × Finset ℕ))
    (hnoexact : ∀ p ∈ modes, p.2 ≠ restrictedArmed bits managed)
    (hnotfull : ¬(restrictedArmed bits managed).card = panelTotal bits managed)
    (m : Mode) (s : Finset ℕ) (hmem : (m, s) ∈ modes)
    (hov : 0 < (restrictedArmed bits managed ∩ s).card)
    (hmax : ∀ p ∈ modes, p ≠ (m, s) →
      ((restrictedArmed bits managed ∩ p.2).card <
          (restrictedArmed bits managed ∩ s).card ∨
        ((restrictedArmed bits managed ∩ p.2).card =
            (restrictedArmed bits managed ∩ s).card ∧
          STATE_PRIORITY (MODE_TO_STATE p.1) <
            STATE_PRIORITY (MODE_TO_STATE m)))) :
    alarmState bits managed modes = MODE_TO_STATE m := by
  have hcard : ¬(restrictedArmed bits managed).card = 0 := by
    have hsub : (restrictedArmed bits managed ∩ s).card ≤
        (restrictedArmed bits managed).card :=
      Finset.card_le_card Finset.inter_subset_left
    omega
  have hfind : (modes.map fun p => (MODE_TO_STATE p.1, p.2)).find?
      (fun q => restrictedArmed bits managed = q.2) = none := by
    apply List.find?_eq_none.mpr
    intro q hq
    rcases List.mem_map.mp hq with ⟨p, hp, rfl⟩
    simp only [decide_eq_true_eq]
    exact fun he => hnoexact p hp he.symm
  have hxmem :
      ((restrictedArmed bits managed ∩ s).card,
        STATE_PRIORITY (MODE_TO_STATE m), MODE_TO_STATE m) ∈
      (modes.map fun p => (MODE_TO_STATE p.1, p.2)).filterMap fun q =>
        if 0 < (restrictedArmed bits managed ∩ q.2).card then
          some ((restrictedArmed bits managed ∩ q.2).card,
            STATE_PRIORITY q.1, q.1)
        else none := by
    refine List.mem_filterMap.mpr ⟨(MODE_TO_STATE m, s),
      List.mem_map.mpr ⟨(m, s), hmem, rfl⟩, ?_⟩
    rw [if_pos hov]
  have hall : ∀ y ∈ (modes.map fun p => (MODE_TO_STATE p.1, p.2)).filterMap
      (fun q => if 0 < (restrictedArmed bits managed ∩ q.2).card then
          some ((restrictedArmed bits managed ∩ q.2).card,
            STATE_PRIORITY q.1, q.1)
        else none),
      y = ((restrictedArmed bits managed ∩ s).card,
        STATE_PRIORITY (MODE_TO_STATE m), MODE_TO_STATE m) ∨
      keyGtB (matchKey ((restrictedArmed bits managed ∩ s).card,
        STATE_PRIORITY (MODE_TO_STATE m), MODE_TO_STATE m)) (matchKey y)
        = true := by
    intro y hy
    rcases List.mem_filterMap.mp hy with ⟨q, hq, hfq⟩
    rcases List.mem_map.mp hq with ⟨p, hp, rfl⟩
    by_cases hovp : 0 < (restrictedArmed bits managed ∩ p.2).card
    · rw [if_pos hovp] at hfq
      injection hfq with hfq
      subst hfq
      by_cases hpm : p = (m, s)
      · subst hpm
        exact Or.inl rfl
      · rcases hmax p hp hpm with hlt | ⟨heq, hplt⟩
        · exact Or.inr (keyGtB_of_lex _ _ (Or.inl hlt))
        · exact Or.inr (keyGtB_of_lex _ _ (Or.inr ⟨heq, hplt⟩))
    · rw [if_neg hovp] at hfq
      cases hfq
  have hpick := pickMax_eq _ _ hxmem hall
  simp only [alarmState]
  rw [if_neg hcard, hfind, if_neg hnotfull, hpick]

/-- **C5 witness.** `modes = {away: {1, 2}, home: {2, 3}}`, restricted armed
set `{2}`: both overlaps are 1, the away/home tie resolves to ArmedAway by
priority 3 > 1. -/
theorem alarm_state_overlap_witness :
    (∀ p ∈ [(Mode.away, ({1, 2} : Finset ℕ)), (Mode.home, {2, 3})],
      p.2 ≠ restrictedArmed [false, true] {1, 2, 3}) ∧
    ¬(restrictedArmed [false, true] {1, 2, 3}).card =
      panelTotal [false, true] {1, 2, 3} ∧
    (Mode.away, ({1, 2} : Finset ℕ)) ∈
      [(Mode.away, ({1, 2} : Finset ℕ)), (Mode.home, {2, 3})] ∧
    0 < (restrictedArmed [false, true] {1, 2, 3} ∩ {1, 2}).card ∧
    alarmState [false, true] {1, 2, 3}
      [(Mode.away, {1, 2}), (Mode.home, {2, 3})] = MODE_TO_STATE Mode.away :=
  ⟨by decide, by decide, by decide, by decide,
    alarm_state_overlap [false, true] {1, 2, 3}
      [(Mode.away, {1, 2}), (Mode.home, {2, 3})] (by decide)
      (by decide) Mode.away {1, 2} (by decide) (by decide) (by decide)⟩

/-! ### Decimal numeral lemmas -/

theorem toNat_digitChar (d : ℕ) (h : d < 10) : (digitChar d).toNat - 48 = d := by
  interval_cases d <;> decide

theorem isDigit_digitChar (d : ℕ) (h : d < 10) : (digitChar d).isDigit = true := by
  interval_cases d <;> decide

theorem valLsd_natToCharsAux :
    ∀ (fuel n : ℕ), n ≤ fuel → valLsd (natToCharsAux fuel n) = n := by
  intro fuel
  induction fuel with
  | zero =>
      intro n hn
      interval_cases n
      rfl
  | succ fuel ih =>
      intro n hn
      by_cases h0 : n = 0
      · subst h0
        rfl
      · have hlt : n / 10 < n := Nat.div_lt_self (by omega) (by norm_num)
        show valLsd (if n = 0 then [] else
          digitChar (n % 10) :: natToCharsAux fuel (n / 10)) = n
        rw [if_neg h0]
        show (digitChar (n % 10)).toNat - 48 +
          10 * valLsd (natToCharsAux fuel (n / 10)) = n
        rw [toNat_digitChar (n % 10) (Nat.mod_lt n (by norm_num)),
          ih (n / 10) (by omega)]
        omega

theorem all_isDigit_natToCharsAux :
    ∀ (fuel n : ℕ), (natToCharsAux fuel n).all Char.isDigit = true := by
  intro fuel
  induction fuel with
  | zero => intro n; rfl
  | succ fuel ih =>
      intro n
      by_cases h0 : n = 0
      · subst h0
        rfl
      · show (if n = 0 then [] else
          digitChar (n % 10) :: natToCharsAux fuel (n / 10)).all Char.isDigit
          = true
        rw [if_neg h0]
        simp only [List.all_cons, Bool.and_eq_true]
        exact ⟨isDigit_digitChar _ (Nat.mod_lt n (by norm_num)), ih (n / 10)⟩

theorem natToCharsAux_ne_nil (fuel n : ℕ) (h0 : n ≠ 0) (hle : n ≤ fuel) :
    natToCharsAux fuel n ≠ [] := by
  cases fuel with
  | zero => omega
  | succ fuel =>
      show (if n = 0 then [] else
        digitChar (n % 10) :: natToCharsAux fuel (n / 10)) ≠ []
      rw [if_neg h0]
      exact List.cons_ne_nil _ _

theorem digitsToNat_reverse : ∀ (l : List Char),
    digitsToNat l.reverse = valLsd l := by
  intro l
  induction l with
  | nil => rfl
  | cons c cs ih =>
      rw [List.reverse_cons]
      show digitsToNat (cs.reverse ++ [c]) = (c.toNat - 48) + 10 * valLsd cs
      unfold digitsToNat
      rw [List.foldl_append]
      unfold digitsToNat at ih
      rw [ih]
      show valLsd cs * 10 + (c.toNat - 48) = (c.toNat - 48) + 10 * valLsd cs
      omega

theorem digitsToNat_natToChars (n : ℕ) : digitsToNat (natToChars n) = n := by
  unfold natToChars
  by_cases h0 : n = 0
  · subst h0
    rfl
  · rw [if_neg h0, digitsToNat_reverse, valLsd_natToCharsAux n n le_rfl]

theorem natToChars_all_digit (n : ℕ) :
    (natToChars n).all Char.isDigit = true := by
  unfold natToChars
  by_cases h0 : n = 0
  · subst h0
    rfl
  · rw [if_neg h0, List.all_reverse]
    exact all_isDigit_natToCharsAux n n

theorem natToChars_ne_nil (n : ℕ) : natToChars n ≠ [] := by
  unfold natToChars
  by_cases h0 : n = 0
  · subst h0
    simp
  · rw [if_neg h0]
    intro h
    exact natToCharsAux_ne_nil n n h0 le_rfl (by
      rwa [← List.reverse_eq_nil_iff])

theorem isDigit_mem_natToChars (n : ℕ) (c : Char) (hc : c ∈ natToChars n) :
    c.isDigit = true := by
  have hall := natToChars_all_digit n
  rw [List.all_eq_true] at hall
  exact hall c hc

/-! ### Character class lemmas -/

theorem isDigit_ne_hyphen (c : Char) (h : c.isDigit = true) : c ≠ '-' := by
  intro hc
  subst hc
  cases h

theorem isDigit_ne_plus (c : Char) (h : c.isDigit = true) : c ≠ '+' := by
  intro hc
  subst hc
  cases h

theorem isDigit_ne_comma (c : Char) (h : c.isDigit = true) : c ≠ ',' := by
  intro hc
  subst hc
  cases h

theorem isDigit_ne_semicolon (c : Char) (h : c.isDigit = true) : c ≠ ';' := by
  intro hc
  subst hc
  cases h

theorem isDigit_not_space (c : Char) (h : c.isDigit = true) :
    isSpaceChar c = false := by
  cases hb : isSpaceChar c
  · rfl
  · exfalso
    simp only [isSpaceChar, Bool.or_eq_true, beq_iff_eq] at hb
    rcases hb with ((rfl | rfl) | rfl) | rfl <;> cases h

theorem hyphen_not_space : isSpaceChar '-' = false := by decide

theorem hyphen_not_digit : ('-').isDigit = false := by decide

/-! ### takeWhile / dropWhile / strip / split lemmas -/

theorem takeWhile_all {p : Char → Bool} :
    ∀ (l : List Char), (∀ c ∈ l, p c = true) → l.takeWhile p = l := by
  intro l
  induction l with
  | nil => intro _; rfl
  | cons c cs ih =>
      intro h
      rw [List.takeWhile_cons, h c (List.mem_cons_self c cs)]
      simp only [if_true]
      rw [ih (fun x hx => h x (List.mem_cons_of_mem c hx))]

theorem dropWhile_all {p : Char → Bool} :
    ∀ (l : List Char), (∀ c ∈ l, p c = true) → l.dropWhile p = [] := by
  intro l
  induction l with
  | nil => intro _; rfl
  | cons c cs ih =>
      intro h
      rw [List.dropWhile_cons, h c (List.mem_cons_self c cs)]
      exact ih fun x hx => h x (List.mem_cons_of_mem c hx)

theorem dropWhile_no_sat {p : Char → Bool} (l : List Char)
    (h : ∀ c ∈ l, p c = false) : l.dropWhile p = l := by
  cases l with
  | nil => rfl
  | cons c cs =>
      rw [List.dropWhile_cons, h c (List.mem_cons_self c cs)]
      simp

theorem takeWhile_append_not {p : Char → Bool} :
    ∀ (A : List Char) (x : Char) (R : List Char),
      (∀ c ∈ A, p c = true) → p x = false →
      (A ++ x :: R).takeWhile p = A := by
  intro A
  induction A with
  | nil =>
      intro x R _ hx
      show (x :: R).takeWhile p = []
      rw [List.takeWhile_cons, hx]
      simp
  | cons a A ih =>
      intro x R hA hx
      show ((a :: (A ++ x :: R)).takeWhile p) = a :: A
      rw [List.takeWhile_cons, hA a (List.mem_cons_self a A)]
      simp only [if_true]
      rw [ih x R (fun c hc => hA c (List.mem_cons_of_mem a hc)) hx]

theorem dropWhile_append_not {p : Char → Bool} :
    ∀ (A : List Char) (x : Char) (R : List Char),
      (∀ c ∈ A, p c = true) → p x = false →
      (A ++ x :: R).dropWhile p = x :: R := by
  intro A
  induction A with
  | nil =>
      intro x R _ hx
      show (x :: R).dropWhile p = x :: R
      rw [List.dropWhile_cons, hx]
      simp
  | cons a A ih =>
      intro x R hA hx
      show ((a :: (A ++ x :: R)).dropWhile p) = x :: R
      rw [List.dropWhile_cons, hA a (List.mem_cons_self a A)]
      exact ih x R (fun c hc => hA c (List.mem_cons_of_mem a hc)) hx

theorem stripChars_no_space (l : List Char)
    (h : ∀ c ∈ l, isSpaceChar c = false) : stripChars l = l := by
  unfold stripChars
  rw [dropWhile_no_sat l h,
    dropWhile_no_sat l.reverse (fun c hc => h c (List.mem_reverse.mp hc)),
    List.reverse_reverse]

theorem stripChars_cons_space (l : List Char) :
    stripChars (' ' :: l) = stripChars l := by
  unfold stripChars
  rw [List.dropWhile_cons]
  norm_num [isSpaceChar]

theorem mem_dropWhile_of {p : Char → Bool} :
    ∀ (l : List Char) (c : Char), c ∈ l → p c = false → c ∈ l.dropWhile p := by
  intro l
  induction l with
  | nil => intro c hc _; cases hc
  | cons a l ih =>
      intro c hc hp
      rw [List.dropWhile_cons]
      cases ha : p a
      · simpa using hc
      · rcases List.mem_cons.mp hc with rfl | hc'
        · rw [hp] at ha
          cases ha
        · exact ih c hc' hp

theorem stripChars_ne_nil (l : List Char) (c : Char) (hc : c ∈ l)
    (hns : isSpaceChar c = false) : stripChars l ≠ [] := by
  unfold stripChars
  intro h
  rw [List.reverse_eq_nil_iff] at h
  have h1 : c ∈ l.dropWhile isSpaceChar := mem_dropWhile_of l c hc hns
  have h2 : c ∈ (l.dropWhile isSpaceChar).reverse := List.mem_reverse.mpr h1
  have h3 := mem_dropWhile_of _ c h2 hns
  rw [h] at h3
  cases h3

theorem splitComma_ne_nil : ∀ (l : List Char), splitComma l ≠ [] := by
  intro l
  induction l with
  | nil => exact List.cons_ne_nil _ _
  | cons c cs ih =>
      unfold splitComma
      split
      · exact List.cons_ne_nil _ _
      · split
        · exact List.cons_ne_nil _ _
        · exact List.cons_ne_nil _ _

theorem splitComma_no_comma : ∀ (l : List Char), (∀ c ∈ l, c ≠ ',') →
    splitComma l = [l] := by
  intro l
  induction l with
  | nil => intro _; rfl
  | cons c cs ih =>
      intro h
      unfold splitComma
      rw [if_neg (h c (List.mem_cons_self c cs)),
        ih fun x hx => h x (List.mem_cons_of_mem c hx)]

theorem splitComma_append_comma :
    ∀ (A : List Char) (R : List Char), (∀ c ∈ A, c ≠ ',') →
      splitComma (A ++ ',' :: R) = A :: splitComma R := by
  intro A
  induction A with
  | nil =>
      intro R _
      show splitComma (',' :: R) = [] :: splitComma R
      simp only [splitComma, if_true]
  | cons a A ih =>
      intro R hA
      show splitComma (a :: (A ++ ',' :: R)) = (a :: A) :: splitComma R
      simp only [splitComma]
      rw [if_neg (hA a (List.mem_cons_self a A)),
        ih R fun c hc => hA c (List.mem_cons_of_mem a hc)]

theorem splitComma_join :
    ∀ (ps : List (List Char)) (p : List Char),
      (∀ part ∈ p :: ps, ∀ c ∈ part, c ≠ ',') →
      splitComma (joinCommaSpace (p :: ps)) = p :: ps.map (' ' :: ·) := by
  intro ps
  induction ps with
  | nil =>
      intro p h
      exact splitComma_no_comma p (h p (List.mem_cons_self p []))
  | cons q ps ih =>
      intro p h
      show splitComma (p ++ ',' :: ' ' :: joinCommaSpace (q :: ps)) =
        p :: (' ' :: q) :: ps.map (' ' :: ·)
      rw [splitComma_append_comma p _ (h p (List.mem_cons_self p _))]
      have hrec := ih q fun part hpart => h part (List.mem_cons_of_mem p hpart)
      show p :: splitComma (' ' :: joinCommaSpace (q :: ps)) =
        p :: (' ' :: q) :: ps.map (' ' :: ·)
      simp only [splitComma]
      rw [if_neg (by decide : ¬(' ' = ','))]
      rw [hrec]

theorem replaceSemicolons_id : ∀ (l : List Char), (∀ c ∈ l, c ≠ ';') →
    replaceSemicolons l = l := by
  intro l
  induction l with
  | nil => intro _; rfl
  | cons c cs ih =>
      intro h
      show (if c = ';' then ',' else c) ::
        cs.map (fun c => if c = ';' then ',' else c) = c :: cs
      rw [if_neg (h c (List.mem_cons_self c cs))]
      have := ih fun x hx => h x (List.mem_cons_of_mem c hx)
      rw [show cs.map (fun c => if c = ';' then ',' else c) =
        replaceSemicolons cs from rfl, this]

/-! ### Range token matching lemmas -/

theorem matchRange_pair (a b : ℕ) :
    matchRange (natToChars a ++ '-' :: natToChars b) = some (a, b) := by
  have hA : ∀ c ∈ natToChars a, Char.isDigit c = true :=
    fun c hc => isDigit_mem_natToChars a c hc
  have hB : ∀ c ∈ natToChars b, Char.isDigit c = true :=
    fun c hc => isDigit_mem_natToChars b c hc
  have h1 : (natToChars a ++ '-' :: natToChars b).takeWhile Char.isDigit =
      natToChars a :=
    takeWhile_append_not (natToChars a) '-' (natToChars b) hA hyphen_not_digit
  have h2 : (natToChars a ++ '-' :: natToChars b).dropWhile Char.isDigit =
      '-' :: natToChars b :=
    dropWhile_append_not (natToChars a) '-' (natToChars b) hA hyphen_not_digit
  have h3 : ('-' :: natToChars b).dropWhile isSpaceChar = '-' :: natToChars b := by
    rw [List.dropWhile_cons, hyphen_not_space]
    simp
  have h4 : (natToChars b).dropWhile isSpaceChar = natToChars b :=
    dropWhile_no_sat _ fun c hc => isDigit_not_space c (hB c hc)
  have h5 : (natToChars b).takeWhile Char.isDigit = natToChars b :=
    takeWhile_all _ hB
  have h6 : (natToChars b).dropWhile Char.isDigit = [] := dropWhile_all _ hB
  simp only [matchRange, h1, h2, h3, h4, h5, h6]
  rw [if_neg (natToChars_ne_nil a)]
  rw [if_neg (by
    simp only [not_or]
    exact ⟨natToChars_ne_nil b, by simp⟩)]
  rw [digitsToNat_natToChars, digitsToNat_natToChars]

theorem matchRange_single (a : ℕ) : matchRange (natToChars a) = none := by
  have hA : ∀ c ∈ natToChars a, Char.isDigit c = true :=
    fun c hc => isDigit_mem_natToChars a c hc
  have h1 : (natToChars a).takeWhile Char.isDigit = natToChars a :=
    takeWhile_all _ hA
  have h2 : (natToChars a).dropWhile Char.isDigit = [] := dropWhile_all _ hA
  simp only [matchRange, h1, h2, List.dropWhile_nil]
  rw [if_neg (natToChars_ne_nil a)]

theorem pyInt_natToChars (a : ℕ) : pyInt (natToChars a) = some (a : ℤ) := by
  rcases hx : natToChars a with _ | ⟨c, cs⟩
  · exact absurd hx (natToChars_ne_nil a)
  · have hc : c.isDigit = true :=
      isDigit_mem_natToChars a c (hx ▸ List.mem_cons_self c cs)
    have hall : (c :: cs).all Char.isDigit = true := hx ▸ natToChars_all_digit a
    show pyInt (c :: cs) = some (a : ℤ)
    simp only [pyInt]
    rw [if_neg (isDigit_ne_hyphen c hc), if_neg (isDigit_ne_plus c hc),
      if_pos hall]
    rw [show digitsToNat (c :: cs) = a from hx ▸ digitsToNat_natToChars a]

/-! ### Token processing lemmas -/

theorem foldl_append_range :
    ∀ (k start : ℕ) (acc : List ℕ), (∀ x ∈ acc, x < start) →
      (List.range' start k).foldl
        (fun r sensor => if sensor ∈ r then r else r ++ [sensor]) acc =
      acc ++ List.range' start k := by
  intro k
  induction k with
  | zero => intro start acc _; simp
  | succ k ih =>
      intro start acc hacc
      rw [List.range'_succ]
      simp only [List.foldl_cons]
      rw [if_neg fun hmem => absurd (hacc start hmem) (lt_irrefl start)]
      rw [ih (start + 1) (acc ++ [start]) ?_]
      · rw [List.append_assoc]
        rfl
      · intro x hx
        rcases List.mem_append.mp hx with h | h
        · exact lt_trans (hacc x h) (Nat.lt_succ_self start)
        · rcases List.mem_cons.mp h with rfl | h'
          · exact Nat.lt_succ_self x
          · cases h'

theorem processPart_pair (maxI : ℕ) (acc : List ℕ) (s e : ℕ)
    (h1 : 1 ≤ min s e) (hm : max s e ≤ maxI) (hacc : ∀ x ∈ acc, x < min s e) :
    processPart maxI acc (natToChars s ++ '-' :: natToChars e) =
      .ok (acc ++ List.range' (min s e) (max s e + 1 - min s e)) := by
  have hne : ¬((natToChars s ++ '-' :: natToChars e).isEmpty = true) := by
    simp [List.isEmpty_iff]
  unfold processPart
  rw [if_neg hne, matchRange_pair s e]
  simp only []
  rw [if_neg (by omega : ¬(min s e < 1 ∨ maxI < max s e))]
  rw [foldl_append_range (max s e + 1 - min s e) (min s e) acc hacc]

theorem processPart_single (maxI : ℕ) (acc : List ℕ) (a : ℕ)
    (h1 : 1 ≤ a) (ham : a ≤ maxI) (hacc : ∀ x ∈ acc, x < a) :
    processPart maxI acc (natToChars a) = .ok (acc ++ [a]) := by
  have hne : ¬((natToChars a).isEmpty = true) := by
    simp [List.isEmpty_iff, natToChars_ne_nil a]
  unfold processPart
  rw [if_neg hne, matchRange_single a, pyInt_natToChars a]
  simp only []
  rw [if_neg (by omega : ¬((a : ℤ) < 1 ∨ (maxI : ℤ) < (a : ℤ)))]
  rw [Int.toNat_ofNat]
  rw [if_neg fun hmem => absurd (hacc a hmem) (lt_irrefl a)]

theorem rangePart_single (a : ℕ) : rangePart (a, a) = natToChars a := by
  unfold rangePart
  rw [if_pos rfl]

theorem rangePart_pair (a b : ℕ) (h : a ≠ b) :
    rangePart (a, b) = natToChars a ++ '-' :: natToChars b := by
  unfold rangePart
  rw [if_neg h]

theorem rangeElems_single (a : ℕ) : rangeElems (a, a) = [a] := by
  unfold rangeElems
  simp

theorem processParts_ranges (maxI : ℕ) :
    ∀ (rs : List (ℕ × ℕ)) (lo : ℕ) (acc : List ℕ),
      rangesOK maxI lo rs → (∀ x ∈ acc, x < lo) →
      processParts maxI (rs.map rangePart) acc =
        .ok (acc ++ rs.flatMap rangeElems) := by
  intro rs
  induction rs with
  | nil =>
      intro lo acc _ _
      simp [processParts]
  | cons r rs ih =>
      intro lo acc hok hacc
      obtain ⟨a, b⟩ := r
      obtain ⟨h1, hlo, hab, hbm, hrest⟩ := hok
      have hacc' : ∀ x ∈ acc, x < a := fun x hx => lt_of_lt_of_le (hacc x hx) hlo
      rw [List.map_cons]
      by_cases heq : a = b
      · subst heq
        rw [rangePart_single a]
        unfold processParts
        rw [processPart_single maxI acc a h1 hbm hacc']
        show processParts maxI (List.map rangePart rs) (acc ++ [a]) =
          Except.ok (acc ++ ((a, a) :: rs).flatMap rangeElems)
        rw [ih (a + 2) (acc ++ [a]) hrest ?_]
        · rw [List.flatMap_cons, rangeElems_single, List.append_assoc]
        · intro x hx
          rcases List.mem_append.mp hx with h | h
          · have := hacc x h
            omega
          · rcases List.mem_cons.mp h with rfl | h'
            · omega
            · cases h'
      · rw [rangePart_pair a b heq]
        unfold processParts
        rw [processPart_pair maxI acc a b (by omega) (by
            rw [max_eq_right hab]
            exact hbm) (by
            rw [min_eq_left hab]
            exact hacc')]
        rw [min_eq_left hab, max_eq_right hab]
        show processParts maxI (List.map rangePart rs)
            (acc ++ List.range' a (b + 1 - a)) =
          Except.ok (acc ++ ((a, b) :: rs).flatMap rangeElems)
        rw [ih (b + 2) (acc ++ List.range' a (b + 1 - a)) hrest ?_]
        · rw [List.flatMap_cons, List.append_assoc]
          rfl
        · intro x hx
          rcases List.mem_append.mp hx with h | h
          · have := hacc x h
            omega
          · have := List.mem_range'_1.mp h
            omega

/-! ### Range building lemmas (`format_input_sensor_list`) -/

theorem buildRanges_ne_nil :
    ∀ (rest : List ℕ) (start prev : ℕ), buildRanges rest start prev ≠ [] := by
  intro rest
  induction rest with
  | nil => intro start prev; exact List.cons_ne_nil _ _
  | cons v rest ih =>
      intro start prev
      unfold buildRanges
      split
      · exact ih start v
      · exact List.cons_ne_nil _ _

theorem buildRanges_flat :
    ∀ (rest : List ℕ) (start prev : ℕ), start ≤ prev →
      List.Chain' (· < ·) (prev :: rest) →
      (buildRanges rest start prev).flatMap rangeElems =
        List.range' start (prev + 1 - start) ++ rest := by
  intro rest
  induction rest with
  | nil =>
      intro start prev _ _
      simp [buildRanges, rangeElems]
  | cons v rest ih =>
      intro start prev hsp hch
      have hpv : prev < v := (List.chain'_cons.mp hch).1
      unfold buildRanges
      by_cases hv : v = prev + 1
      · rw [if_pos hv]
        rw [ih start v (by omega) (hv ▸ (List.chain'_cons.mp hch).2)]
        have hk : v + 1 - start = (prev + 1 - start) + 1 := by omega
        rw [hk, List.range'_1_concat]
        have h2 : start + (prev + 1 - start) = v := by omega
        rw [h2, List.append_assoc]
        rfl
      · rw [if_neg hv]
        rw [List.flatMap_cons]
        rw [ih v v le_rfl (List.chain'_cons.mp hch).2]
        have hk : v + 1 - v = 1 := by omega
        rw [hk, List.range'_one]
        show List.range' start (prev + 1 - start) ++ ([v] ++ rest) = _
        rfl

theorem buildRanges_ok (maxI : ℕ) :
    ∀ (rest : List ℕ) (start prev lo : ℕ), 1 ≤ start → lo ≤ start →
      start ≤ prev → List.Chain' (· < ·) (prev :: rest) →
      (∀ x ∈ prev :: rest, x ≤ maxI) →
      rangesOK maxI lo (buildRanges rest start prev) := by
  intro rest
  induction rest with
  | nil =>
      intro start prev lo h1 hlo hsp _ hbound
      exact ⟨h1, hlo, hsp, hbound prev (List.mem_cons_self prev []), trivial⟩
  | cons v rest ih =>
      intro start prev lo h1 hlo hsp hch hbound
      have hpv : prev < v := (List.chain'_cons.mp hch).1
      have hbound' : ∀ x ∈ v :: rest, x ≤ maxI :=
        fun x hx => hbound x (List.mem_cons_of_mem prev hx)
      unfold buildRanges
      by_cases hv : v = prev + 1
      · rw [if_pos hv]
        exact ih start v lo h1 hlo (by omega) (List.chain'_cons.mp hch).2 hbound'
      · rw [if_neg hv]
        exact ⟨h1, hlo, hsp, hbound prev (List.mem_cons_self prev _),
          ih v v (prev + 2) (by omega) (by omega) le_rfl
            (List.chain'_cons.mp hch).2 hbound'⟩

theorem sorted_le_of_chain_lt (l : List ℕ) (h : List.Chain' (· < ·) l) :
    List.Sorted (· ≤ ·) l :=
  (List.chain'_iff_pairwise.mp h).imp le_of_lt

theorem insertionSort_sorted_id (l : List ℕ) (h : List.Sorted (· ≤ ·) l) :
    List.insertionSort (· ≤ ·) l = l :=
  List.eq_of_perm_of_sorted (List.perm_insertionSort _ l)
    (List.sorted_insertionSort _ l) h

/-! ### Formatted string characterization -/

theorem rangePart_chars (r : ℕ × ℕ) (c : Char) (hc : c ∈ rangePart r) :
    c.isDigit = true ∨ c = '-' := by
  unfold rangePart at hc
  split at hc
  · exact Or.inl (isDigit_mem_natToChars _ c hc)
  · rcases List.mem_append.mp hc with h | h
    · exact Or.inl (isDigit_mem_natToChars _ c h)
    · rcases List.mem_cons.mp h with rfl | h'
      · exact Or.inr rfl
      · exact Or.inl (isDigit_mem_natToChars _ c h')

theorem rangePart_ne_nil (r : ℕ × ℕ) : rangePart r ≠ [] := by
  unfold rangePart
  split
  · exact natToChars_ne_nil _
  · intro h
    exact natToChars_ne_nil r.1 (List.append_eq_nil.mp h).1

theorem joinCommaSpace_chars :
    ∀ (ps : List (List Char)) (c : Char), c ∈ joinCommaSpace ps →
      (∃ p ∈ ps, c ∈ p) ∨ c = ',' ∨ c = ' ' := by
  intro ps
  induction ps with
  | nil => intro c hc; cases hc
  | cons p ps ih =>
      intro c hc
      cases ps with
      | nil => exact Or.inl ⟨p, List.mem_cons_self p [], hc⟩
      | cons q ps' =>
          have hc' : c ∈ p ++ ',' :: ' ' :: joinCommaSpace (q :: ps') := hc
          rcases List.mem_append.mp hc' with h | h
          · exact Or.inl ⟨p, List.mem_cons_self p _, h⟩
          · rcases List.mem_cons.mp h with rfl | h1
            · exact Or.inr (Or.inl rfl)
            · rcases List.mem_cons.mp h1 with rfl | h2
              · exact Or.inr (Or.inr rfl)
              · rcases ih c h2 with ⟨p', hp', hcp'⟩ | hcs
                · exact Or.inl ⟨p', List.mem_cons_of_mem p hp', hcp'⟩
                · exact Or.inr hcs

theorem mem_joinCommaSpace_head (p : List Char) (ps : List (List Char))
    (c : Char) (hc : c ∈ p) : c ∈ joinCommaSpace (p :: ps) := by
  cases ps with
  | nil => exact hc
  | cons q ps' => exact List.mem_append_left _ hc

theorem joinCommaSpace_ne_nil (p : List Char) (ps : List (List Char))
    (hp : p ≠ []) : joinCommaSpace (p :: ps) ≠ [] := by
  cases ps with
  | nil => exact hp
  | cons q ps' =>
      intro h
      exact hp (List.append_eq_nil.mp h).1

/-- Assembled front end of `parse_input_sensor_selection` for a string whose
tokens are formatted range parts: the emptiness guards pass, the semicolon
replacement is the identity, and splitting plus stripping recovers exactly
the token list. -/
theorem parseSelection_parts (maxI : ℕ) (rs : List (ℕ × ℕ)) (hrs : rs ≠ []) :
    parseSelection (joinCommaSpace (rs.map rangePart)) maxI =
      match processParts maxI (rs.map rangePart) [] with
      | .error e => .error e
      | .ok result =>
          if result.isEmpty then .error ()
          else .ok (List.insertionSort (· ≤ ·) result) := by
  rcases hrs0 : rs with _ | ⟨r0, rs'⟩
  · exact absurd hrs0 hrs
  subst hrs0
  rw [List.map_cons]
  have hpartchars : ∀ part ∈ rangePart r0 :: rs'.map rangePart,
      ∀ c ∈ part, c.isDigit = true ∨ c = '-' := by
    intro part hpart c hc
    rcases List.mem_cons.mp hpart with rfl | hpart'
    · exact rangePart_chars r0 c hc
    · rcases List.mem_map.mp hpart' with ⟨r, _, rfl⟩
      exact rangePart_chars r c hc
  have hnocomma : ∀ part ∈ rangePart r0 :: rs'.map rangePart,
      ∀ c ∈ part, c ≠ ',' := by
    intro part hpart c hc
    rcases hpartchars part hpart c hc with hd | rfl
    · exact isDigit_ne_comma c hd
    · decide
  have hvalchars := joinCommaSpace_chars (rangePart r0 :: rs'.map rangePart)
  have hnosemi : ∀ c ∈ joinCommaSpace (rangePart r0 :: rs'.map rangePart),
      c ≠ ';' := by
    intro c hc
    rcases hvalchars c hc with ⟨p, hp, hcp⟩ | rfl | rfl
    · rcases hpartchars p hp c hcp with hd | rfl
      · exact isDigit_ne_semicolon c hd
      · decide
    · decide
    · decide
  have hvne : joinCommaSpace (rangePart r0 :: rs'.map rangePart) ≠ [] :=
    joinCommaSpace_ne_nil _ _ (rangePart_ne_nil r0)
  obtain ⟨c0, cs0, hr0⟩ := List.exists_cons_of_ne_nil (rangePart_ne_nil r0)
  have hc0mem : c0 ∈ rangePart r0 := hr0 ▸ List.mem_cons_self c0 cs0
  have hc0 : isSpaceChar c0 = false := by
    rcases rangePart_chars r0 c0 hc0mem with hd | rfl
    · exact isDigit_not_space c0 hd
    · exact hyphen_not_space
  have hsne : stripChars (joinCommaSpace (rangePart r0 :: rs'.map rangePart))
      ≠ [] :=
    stripChars_ne_nil _ c0 (mem_joinCommaSpace_head _ _ c0 hc0mem) hc0
  have hnospacepart : ∀ part ∈ rangePart r0 :: rs'.map rangePart,
      ∀ c ∈ part, isSpaceChar c = false := by
    intro part hpart c hc
    rcases hpartchars part hpart c hc with hd | rfl
    · exact isDigit_not_space c hd
    · exact hyphen_not_space
  unfold parseSelection
  rw [if_neg (by
    simp only [Bool.or_eq_true, List.isEmpty_iff, not_or]
    exact ⟨hvne, hsne⟩)]
  rw [replaceSemicolons_id _ hnosemi]
  rw [splitComma_join (rs'.map rangePart) (rangePart r0) hnocomma]
  rw [List.map_cons,
    stripChars_no_space _ (hnospacepart (rangePart r0)
      (List.mem_cons_self _ _)), List.map_map]
  rw [List.map_congr_left (g := id) (fun q hq => by
    show stripChars (' ' :: q) = q
    rw [stripChars_cons_space]
    exact stripChars_no_space q
      (hnospacepart q (List.mem_cons_of_mem _ hq)))]
  rw [List.map_id]

/-- Core C7 lemma: parsing a formatted canonical list gives it back. -/
theorem parse_format_roundtrip (maxI : ℕ) (l : List ℕ) (hne : l ≠ [])
    (hch : List.Chain' (· < ·) l) (hbound : ∀ x ∈ l, 1 ≤ x ∧ x ≤ maxI) :
    parseSelection (formatInputs l) maxI = .ok l := by
  obtain ⟨v, rest, rfl⟩ := List.exists_cons_of_ne_nil hne
  have hsorted : List.Sorted (· ≤ ·) (v :: rest) := sorted_le_of_chain_lt _ hch
  have hfmt : formatInputs (v :: rest) =
      joinCommaSpace ((buildRanges rest v v).map rangePart) := by
    unfold formatInputs
    rw [if_neg (by simp), insertionSort_sorted_id _ hsorted]
  rw [hfmt, parseSelection_parts maxI (buildRanges rest v v)
    (buildRanges_ne_nil rest v v)]
  rw [processParts_ranges maxI (buildRanges rest v v) 0 []
    (buildRanges_ok maxI rest v v 0 (hbound v (List.mem_cons_self v rest)).1
      (Nat.zero_le v) le_rfl hch (fun x hx => (hbound x hx).2))
    (fun x hx => absurd hx (List.not_mem_nil x))]
  rw [buildRanges_flat rest v v le_rfl hch]
  have hvv : v + 1 - v = 1 := by omega
  rw [hvv, List.range'_one]
  show (if (([v] ++ rest : List ℕ)).isEmpty = true then Except.error () else
    Except.ok (List.insertionSort (· ≤ ·) ([v] ++ rest))) = Except.ok (v :: rest)
  rw [if_neg (by simp)]
  rw [show ([v] ++ rest : List ℕ) = v :: rest from rfl,
    insertionSort_sorted_id _ hsorted]

/-- **C7.** For every already-canonical compact range string — i.e. the
formatted output of a nonempty strictly ascending list of inputs within
`1..max_input` — parsing and re-formatting reproduces the string:
`format_input_sensor_list(parse_input_sensor_selection(s)) = s`. -/
theorem format_parse_roundtrip (maxI : ℕ) (l : List ℕ) (hne : l ≠ [])
    (hch : List.Chain' (· < ·) l) (hbound : ∀ x ∈ l, 1 ≤ x ∧ x ≤ maxI) :
    ∃ r, parseSelection (formatInputs l) maxI = .ok r ∧
      formatInputs r = formatInputs l :=
  ⟨l, parse_format_roundtrip maxI l hne hch hbound, rfl⟩

/-- **C7 witness.** The spec example `"1-3, 5, 7-8"`. -/
theorem format_parse_roundtrip_witness :
    ([1, 2, 3, 5, 7, 8] : List ℕ) ≠ [] ∧
    List.Chain' (· < ·) [1, 2, 3, 5, 7, 8] ∧
    (∀ x ∈ ([1, 2, 3, 5, 7, 8] : List ℕ), 1 ≤ x ∧ x ≤ 8) ∧
    (∃ r, parseSelection (formatInputs [1, 2, 3, 5, 7, 8]) 8 = .ok r ∧
      formatInputs r = formatInputs [1, 2, 3, 5, 7, 8]) :=
  ⟨by decide, by decide, by decide,
    format_parse_roundtrip 8 [1, 2, 3, 5, 7, 8] (by decide) (by decide)
      (by decide)⟩

/-- **C9.** `parse_input_sensor_selection` accepts reversed ranges: for
`1 ≤ b < a ≤ max_input`, the single token `"a-b"` parses to the full
ascending range `b..a` instead of being rejected. -/
theorem parse_reversed_range (a b maxI : ℕ) (hb : 1 ≤ b) (hba : b < a)
    (ham : a ≤ maxI) :
    parseSelection (natToChars a ++ '-' :: natToChars b) maxI =
      .ok (List.range' b (a + 1 - b)) := by
  have hchars : ∀ c ∈ natToChars a ++ '-' :: natToChars b,
      c.isDigit = true ∨ c = '-' := by
    intro c hc
    rcases List.mem_append.mp hc with h | h
    · exact Or.inl (isDigit_mem_natToChars a c h)
    · rcases List.mem_cons.mp h with rfl | h'
      · exact Or.inr rfl
      · exact Or.inl (isDigit_mem_natToChars b c h')
  have hnospace : ∀ c ∈ natToChars a ++ '-' :: natToChars b,
      isSpaceChar c = false := by
    intro c hc
    rcases hchars c hc with hd | rfl
    · exact isDigit_not_space c hd
    · exact hyphen_not_space
  have hnosemi : ∀ c ∈ natToChars a ++ '-' :: natToChars b, c ≠ ';' := by
    intro c hc
    rcases hchars c hc with hd | rfl
    · exact isDigit_ne_semicolon c hd
    · decide
  have hnocomma : ∀ c ∈ natToChars a ++ '-' :: natToChars b, c ≠ ',' := by
    intro c hc
    rcases hchars c hc with hd | rfl
    · exact isDigit_ne_comma c hd
    · decide
  have hvne : natToChars a ++ '-' :: natToChars b ≠ [] := by
    simp
  obtain ⟨c0, cs0, ha0⟩ := List.exists_cons_of_ne_nil (natToChars_ne_nil a)
  have hc0mem : c0 ∈ natToChars a ++ '-' :: natToChars b :=
    List.mem_append_left _ (ha0 ▸ List.mem_cons_self c0 cs0)
  unfold parseSelection
  rw [if_neg (by
    simp only [Bool.or_eq_true, List.isEmpty_iff, not_or]
    exact ⟨hvne, stripChars_ne_nil _ c0 hc0mem (hnospace c0 hc0mem)⟩)]
  rw [replaceSemicolons_id _ hnosemi]
  rw [splitComma_no_comma _ hnocomma]
  rw [List.map_cons, stripChars_no_space _ hnospace]
  show (match processParts maxI [natToChars a ++ '-' :: natToChars b] []
      with
    | Except.error e => Except.error e
    | Except.ok result =>
        if result.isEmpty = true then Except.error ()
        else Except.ok (List.insertionSort (· ≤ ·) result)) = _
  unfold processParts
  rw [processPart_pair maxI [] a b (by omega) (by
      rw [max_eq_left (le_of_lt hba)]
      exact ham) (fun x hx => absurd hx (List.not_mem_nil x))]
  rw [min_eq_right (le_of_lt hba), max_eq_left (le_of_lt hba)]
  show (if (([] ++ List.range' b (a + 1 - b) : List ℕ)).isEmpty = true then
      Except.error () else
      Except.ok (List.insertionSort (· ≤ ·) ([] ++ List.range' b (a + 1 - b))))
    = _
  rw [List.nil_append]
  rw [if_neg (by
    simp only [List.isEmpty_iff]
    intro h
    have := List.range'_eq_nil.mp h
    omega)]
  rw [insertionSort_sorted_id _
    ((List.pairwise_lt_range' b (a + 1 - b) 1 (by norm_num)).imp le_of_lt)]

/-- **C9 witness.** `"5-3"` with `max_input = 9` parses to `[3, 4, 5]`. -/
theorem parse_reversed_range_witness :
    1 ≤ 3 ∧ 3 < 5 ∧ 5 ≤ 9 ∧
    parseSelection (natToChars 5 ++ '-' :: natToChars 3) 9 =
      .ok (List.range' 3 (5 + 1 - 3)) :=
  ⟨by decide, by decide, by decide,
    parse_reversed_range 5 3 9 (by decide) (by decide) (by decide)⟩

end ElmoModbus
